import Mathlib

/-!
Verification of the fixed-capacity, allocation-free LRU cache from
`src/main.rs` (`LRUCache<T, const N: usize>` backed by an
`ArrayVec<Entry<T>, N>` and an intrusive doubly-linked list of `u16`
indices).

Shallow embedding conventions:
* `ArrayVec<Entry<T>, N>` becomes a `List (Entry T)`; the capacity bound
  `length ≤ N` is an invariant, not a type-level fact.  `ArrayVec::push`
  panics when full, so the model of a push is guarded by `length < N`.
* `u16` indices become `Nat`; the two `as u16` casts in the source
  (`self.entries.len() as u16` in `insert` and `N as u16` in
  `IterMut::next`) are modelled with an explicit `% 65536`.
* Indexing `self.entries[i as usize]` panics when out of bounds; every
  operation that performs such an access is therefore `Option`-valued,
  `none` meaning "the Rust code panics (or diverges)".
* The `while let` loop of `touch` and the iterator are modelled with
  explicit fuel `entries.length + 1`; on every state satisfying the chain
  invariant this is exactly enough fuel for the real traversal, and
  exhausting it (`none`) corresponds to the Rust loop not terminating.
-/

set_option maxHeartbeats 1000000

namespace LRU

/-- One slot of the cache: a stored value plus the two chain links
(`prev`, `next` are `u16` slot indices in the source). -/
structure Entry (T : Type) where
  val : T
  prev : Nat
  next : Nat
  deriving DecidableEq, Repr

/-- The cache: slot storage (an `ArrayVec` of capacity `N` in the source)
plus the indices of the most-recently-used (`head`) and
least-recently-used (`tail`) slots. -/
structure LRUCache (T : Type) (N : Nat) where
  entries : List (Entry T)
  head : Nat
  tail : Nat
  deriving DecidableEq, Repr

variable {T : Type} {N : Nat}

/-- `LRUCache::new`: empty storage, `head = tail = 0`.  The source performs
no capacity check of any kind. -/
def new : LRUCache T N := ⟨[], 0, 0⟩

/-- `pop_back`: read `entry(tail).prev` (panics if `tail` is out of
bounds), make it the new tail, return the old tail index. -/
def pop_back (c : LRUCache T N) : Option (Nat × LRUCache T N) :=
  match c.entries[c.tail]? with
  | none => none
  | some e => some (c.tail, { c with tail := e.prev })

/-- `push_front i`: if `entries.len() == 1` just set `tail := i`; otherwise
set `entry(i).next := head` and `entry(head).prev := i`.  Finally
`head := i`. -/
def push_front (c : LRUCache T N) (i : Nat) : Option (LRUCache T N) :=
  if c.entries.length = 1 then
    some { c with tail := i, head := i }
  else
    match c.entries[i]? with
    | none => none
    | some ei =>
      match (c.entries.set i ⟨ei.val, ei.prev, c.head⟩)[c.head]? with
      | none => none
      | some eh =>
        some ⟨(c.entries.set i ⟨ei.val, ei.prev, c.head⟩).set c.head ⟨eh.val, i, eh.next⟩,
              i, c.tail⟩

/-- `remove i`: unlink slot `i` from the chain, patching `head`, `tail` and
the neighbours' links exactly as the source does (both `prev` and `next`
of `i` are read once, before any write). -/
def remove (c : LRUCache T N) (i : Nat) : Option (LRUCache T N) :=
  match c.entries[i]? with
  | none => none
  | some e =>
    let s1 : Option (LRUCache T N) :=
      if i = c.head then some { c with head := e.next }
      else
        match c.entries[e.prev]? with
        | none => none
        | some ep =>
          some { c with entries := c.entries.set e.prev ⟨ep.val, ep.prev, e.next⟩ }
    s1.bind fun c1 =>
      if i = c1.tail then some { c1 with tail := e.prev }
      else
        match c1.entries[e.next]? with
        | none => none
        | some en =>
          some { c1 with entries := c1.entries.set e.next ⟨en.val, e.prev, en.next⟩ }

/-- `touch_index i`: no-op when `i` is already the head, otherwise
`remove i` then `push_front i`. -/
def touch_index (c : LRUCache T N) (i : Nat) : Option (LRUCache T N) :=
  if i = c.head then some c
  else (remove c i).bind fun c1 => push_front c1 i

/-- `insert val`: when full (`len == N`), evict via `pop_back`, overwrite
that slot with the new entry (`mem::replace`), relink it at the front and
return the evicted value; otherwise push a new slot at index
`len as u16` and link it at the front, returning nothing.
(`ArrayVec::push` panics when the storage is already at capacity.) -/
def insert (c : LRUCache T N) (v : T) : Option (Option T × LRUCache T N) :=
  if c.entries.length = N then
    (pop_back c).bind fun ic =>
      match ic.2.entries[ic.1]? with
      | none => none
      | some old =>
        (push_front { ic.2 with entries := ic.2.entries.set ic.1 ⟨v, 0, 0⟩ } ic.1).map
          fun c3 => (some old.val, c3)
  else
    if c.entries.length < N then
      (push_front { c with entries := c.entries ++ [⟨v, 0, 0⟩] }
          (c.entries.length % 65536)).map
        fun c2 => (none, c2)
    else none

/-- One step of `touch`'s `while let` loop over `IterMut`: look up the
cursor (`entries.get_mut(pos)`), stop with `false` when absent; otherwise
either promote the slot on a predicate hit or advance the cursor
(`N as u16` past the tail).  `fuel = 0` models a non-terminating loop. -/
def touchAux (p : T → Bool) (c : LRUCache T N) : Nat → Nat → Option (Bool × LRUCache T N)
  | _, 0 => none
  | pos, fuel + 1 =>
    match c.entries[pos]? with
    | none => some (false, c)
    | some e =>
      if p e.val then (touch_index c pos).map fun c' => (true, c')
      else touchAux p c (if pos = c.tail then N % 65536 else e.next) fuel

/-- `touch pred`: scan from `head` in recency order, promote the first
match to the front.  Fuel `entries.length + 1` is exactly the number of
cursor positions a terminating traversal can visit. -/
def touch (c : LRUCache T N) (p : T → Bool) : Option (Bool × LRUCache T N) :=
  touchAux p c c.head (c.entries.length + 1)

/-- `front_mut`: the value stored at `head`, if that slot exists. -/
def front_mut (c : LRUCache T N) : Option T :=
  (c.entries[c.head]?).map Entry.val

/-- `find pred`: `touch` then `front_mut` on a hit. -/
def find (c : LRUCache T N) (p : T → Bool) : Option (Option T × LRUCache T N) :=
  (touch c p).map fun r => (if r.1 then front_mut r.2 else none, r.2)

/-- `len`: current occupancy. -/
def len (c : LRUCache T N) : Nat := c.entries.length

/-- `is_empty`. -/
def is_empty (c : LRUCache T N) : Bool := decide (c.entries.length = 0)

/-- `clear`: `self.entries.clear()` only — `head` and `tail` keep their
stale values. -/
def clear (c : LRUCache T N) : LRUCache T N := { c with entries := [] }

/-- The value sequence produced by a full `IterMut` traversal starting at
cursor `pos` with the given fuel: stop when `entries.get_mut(pos)` is
absent, and jump to `N as u16` after visiting the tail slot. -/
def iterFrom (c : LRUCache T N) : Nat → Nat → List T
  | _, 0 => []
  | pos, fuel + 1 =>
    match c.entries[pos]? with
    | none => []
    | some e => e.val :: iterFrom c (if pos = c.tail then N % 65536 else e.next) fuel

/-- All values yielded by `iter_mut`, most-recently-used first. -/
def iterVals (c : LRUCache T N) : List T := iterFrom c c.head (c.entries.length + 1)

/-- Run a sequence of inserts, collecting each call's return value; `none`
if any insert panics. -/
def runInserts : LRUCache T N → List T → Option (List (Option T) × LRUCache T N)
  | c, [] => some ([], c)
  | c, v :: vs =>
    (insert c v).bind fun rc =>
      (runInserts rc.2 vs).map fun rs => (rc.1 :: rs.1, rs.2)

/-- The mutating public operations. -/
inductive Op (T : Type) where
  | ins : T → Op T
  | tch : (T → Bool) → Op T
  | fnd : (T → Bool) → Op T
  | clr : Op T

/-- State transition of one public operation (`none` = panic/divergence). -/
def stepOp (c : LRUCache T N) : Op T → Option (LRUCache T N)
  | .ins v => (insert c v).map Prod.snd
  | .tch p => (touch c p).map Prod.snd
  | .fnd p => (find c p).map Prod.snd
  | .clr => some (clear c)

/-- States reachable from `new` by public operations. -/
inductive Reachable : LRUCache T N → Prop where
  | init : Reachable new
  | next : ∀ {c c' : LRUCache T N} (o : Op T), Reachable c →
      stepOp c o = some c' → Reachable c'

/-- The `next` link of slot `j`, if the slot exists. -/
def nexts (entries : List (Entry T)) : Nat → Option Nat :=
  fun j => (entries[j]?).map Entry.next

/-- The `prev` link of slot `j`, if the slot exists. -/
def prevs (entries : List (Entry T)) : Nat → Option Nat :=
  fun j => (entries[j]?).map Entry.prev

/-- The value of slot `j`, if the slot exists. -/
def valOf (entries : List (Entry T)) : Nat → Option T :=
  fun j => (entries[j]?).map Entry.val

/-- `isPathF nxt tl s l = true` iff `l` is the exact node sequence of a
walk that starts at `s`, follows `nxt`, and stops at the first node equal
to `tl` (the `next` field of `tl` itself is never read, matching the
iterator's stopping rule). -/
def isPathF (nxt : Nat → Option Nat) (tl : Nat) : Nat → List Nat → Bool
  | _, [] => false
  | s, [j] => decide (j = s) && decide (s = tl)
  | s, j :: k :: l =>
    decide (j = s) && !(decide (s = tl)) &&
      (match nxt s with
       | none => false
       | some m => isPathF nxt tl m (k :: l))

/-- `prevOkF prv l = true` iff every node of `l` after the first has its
`prev` link pointing to its predecessor in `l` (the `prev` field of the
first node is never read by the source). -/
def prevOkF (prv : Nat → Option Nat) : List Nat → Bool
  | a :: b :: l => decide (prv b = some a) && prevOkF prv (b :: l)
  | _ => true

/-- The full chain invariant relative to an explicit node list `l`:
`l` runs from `head` to `tail` along `next`, is duplicate-free, covers
every occupied slot exactly once, and the `prev` links reverse it. -/
def ChainInv (c : LRUCache T N) (l : List Nat) : Prop :=
  isPathF (nexts c.entries) c.tail c.head l = true ∧
  l.Nodup ∧
  l.length = c.entries.length ∧
  (∀ j ∈ l, j < c.entries.length) ∧
  prevOkF (prevs c.entries) l = true

/-- The reachable-state invariant: occupancy never exceeds the capacity,
and a non-empty cache carries a well-formed recency chain. -/
def Inv (c : LRUCache T N) : Prop :=
  c.entries.length ≤ N ∧ (0 < c.entries.length → ∃ l, ChainInv c l)

/-- The state produced by `insert new 10; insert new 20` on capacity 2,
used to instantiate theorems at a concrete reachable state. -/
def cacheW : LRUCache Nat 2 := ⟨[⟨10, 1, 0⟩, ⟨20, 0, 0⟩], 1, 0⟩

/-- The intermediate state produced by `insert new 10` on capacity 2. -/
def cacheW1 : LRUCache Nat 2 := ⟨[⟨10, 0, 0⟩], 0, 0⟩

/-- The state produced by inserting `1, 2, 3` into an empty capacity-3 cache. -/
def cacheV : LRUCache Nat 3 := ⟨[⟨1, 1, 0⟩, ⟨2, 2, 0⟩, ⟨3, 0, 1⟩], 2, 0⟩

/-! ### Lemmas about the path predicates -/

theorem isPathF_nil (nxt : Nat → Option Nat) (tl s : Nat) :
    isPathF nxt tl s [] = false := rfl

theorem isPathF_single {nxt : Nat → Option Nat} {tl s j : Nat} :
    isPathF nxt tl s [j] = true ↔ j = s ∧ s = tl := by
  simp [isPathF]

theorem isPathF_cons₂ {nxt : Nat → Option Nat} {tl s j k : Nat} {l : List Nat} :
    isPathF nxt tl s (j :: k :: l) = true ↔
      j = s ∧ s ≠ tl ∧ ∃ m, nxt s = some m ∧ isPathF nxt tl m (k :: l) = true := by
  cases h : nxt s <;> simp [isPathF, h, and_assoc]

theorem isPathF_ne_nil {nxt : Nat → Option Nat} {tl s : Nat} {l : List Nat}
    (h : isPathF nxt tl s l = true) : l ≠ [] := by
  intro hl; subst hl; simp [isPathF] at h

theorem isPathF_head {nxt : Nat → Option Nat} {tl s : Nat} {l : List Nat}
    (h : isPathF nxt tl s l = true) : l.head? = some s := by
  match l with
  | [] => simp [isPathF] at h
  | [j] => rw [isPathF_single] at h; simp [h.1]
  | j :: k :: l => rw [isPathF_cons₂] at h; simp [h.1]

theorem isPathF_getLast {nxt : Nat → Option Nat} {tl s : Nat} {l : List Nat}
    (h : isPathF nxt tl s l = true) : l.getLast? = some tl := by
  induction l generalizing s with
  | nil => simp [isPathF] at h
  | cons j l ih =>
    match l with
    | [] =>
      rw [isPathF_single] at h
      simp [h.1, h.2]
    | k :: l' =>
      rw [isPathF_cons₂] at h
      obtain ⟨-, -, m, -, hp⟩ := h
      rw [List.getLast?_cons_cons]
      exact ih hp

theorem isPathF_congr {nxt nxt' : Nat → Option Nat} {tl s : Nat} {l : List Nat}
    (h : ∀ j ∈ l.dropLast, nxt j = nxt' j) (hs : l.head? = some s) :
    isPathF nxt tl s l = isPathF nxt' tl s l := by
  induction l generalizing s with
  | nil => rfl
  | cons j l ih =>
    match l with
    | [] => simp [isPathF]
    | k :: l' =>
      have hjs : j = s := by simpa using hs
      subst hjs
      have hj : nxt j = nxt' j := h j (by simp)
      have hih : ∀ x ∈ (k :: l').dropLast, nxt x = nxt' x := by
        intro x hx
        refine h x ?_
        rcases l' with - | ⟨y, l''⟩
        · simp at hx
        · simpa using Or.inr (by simpa using hx)
      rw [Bool.eq_iff_iff, isPathF_cons₂, isPathF_cons₂]
      constructor
      · rintro ⟨-, htl, m, hm, hp⟩
        have hk : k = m := by simpa using isPathF_head hp
        subst hk
        refine ⟨rfl, htl, k, by rw [← hj]; exact hm, ?_⟩
        rw [← ih hih (by simp)]
        exact hp
      · rintro ⟨-, htl, m, hm, hp⟩
        have hk : k = m := by simpa using isPathF_head hp
        subst hk
        refine ⟨rfl, htl, k, by rw [hj]; exact hm, ?_⟩
        rw [ih hih (by simp)]
        exact hp

theorem isPathF_mem_lt {nxt : Nat → Option Nat} {tl s : Nat} {l : List Nat}
    (h : isPathF nxt tl s l = true) : s ∈ l := by
  have := isPathF_head h
  cases l with
  | nil => simp at this
  | cons a l => simp at this; simp [this]

theorem isPathF_join {nxt : Nat → Option Nat} {a b tl s : Nat} {xs ys : List Nat}
    (hxs : isPathF nxt a s xs = true) (hab : nxt a = some b)
    (hys : isPathF nxt tl b ys = true) (hlast : xs.getLast? = some a)
    (hne : ∀ j ∈ xs, j ≠ tl) :
    isPathF nxt tl s (xs ++ ys) = true := by
  induction xs generalizing s with
  | nil => simp [isPathF] at hxs
  | cons x xs ih =>
    match xs with
    | [] =>
      rw [isPathF_single] at hxs
      obtain ⟨h1, h2⟩ := hxs
      have hyne : ys ≠ [] := isPathF_ne_nil hys
      match ys, hyne with
      | y :: ys', _ =>
        simp only [List.cons_append, List.nil_append]
        rw [isPathF_cons₂]
        exact ⟨h1, h1 ▸ hne x (by simp), b, by rw [h2]; exact hab, hys⟩
    | x' :: xs' =>
      rw [isPathF_cons₂] at hxs
      obtain ⟨h1, -, m, hm, hp⟩ := hxs
      have hlast' : (x' :: xs').getLast? = some a := by
        rw [← hlast]; simp [List.getLast?_cons_cons]
      have hrec := ih hp hlast' (fun j hj => hne j (by simp [hj]))
      simp only [List.cons_append]
      rw [isPathF_cons₂]
      refine ⟨h1, h1 ▸ hne x (by simp), m, h1 ▸ hm, ?_⟩
      simpa using hrec

theorem isPathF_split {nxt : Nat → Option Nat} {tl s : Nat} {xs ys : List Nat}
    (h : isPathF nxt tl s (xs ++ ys) = true) (hxs : xs ≠ []) (hys : ys ≠ [])
    (hnd : (xs ++ ys).Nodup) :
    ∃ a b, xs.getLast? = some a ∧ ys.head? = some b ∧
      isPathF nxt a s xs = true ∧ nxt a = some b ∧ isPathF nxt tl b ys = true := by
  induction xs generalizing s with
  | nil => exact absurd rfl hxs
  | cons x xs ih =>
    match xs with
    | [] =>
      match ys, hys with
      | y :: ys', _ =>
        simp only [List.cons_append, List.nil_append] at h
        rw [isPathF_cons₂] at h
        obtain ⟨h1, -, m, hm, hp⟩ := h
        refine ⟨x, m, rfl, isPathF_head hp, ?_, ?_, hp⟩
        · simp [isPathF_single, h1]
        · rw [h1]; exact hm
    | x' :: xs' =>
      simp only [List.cons_append] at h
      rw [isPathF_cons₂] at h
      obtain ⟨h1, -, m, hm, hp⟩ := h
      have hp' : isPathF nxt tl m ((x' :: xs') ++ ys) = true := by
        simpa using hp
      have hnd' : ((x' :: xs') ++ ys).Nodup := by
        have := hnd
        simp only [List.cons_append, List.nodup_cons] at this
        simpa using this.2
      obtain ⟨a, b, ha, hb, hpa, hab, hpb⟩ := ih hp' (by simp) hnd'
      refine ⟨a, b, by rw [← ha]; simp [List.getLast?_cons_cons], hb, ?_, hab, hpb⟩
      have hxa : x ≠ a := by
        intro hxae; subst hxae
        have hmem : x ∈ (x' :: xs') ++ ys := by
          have := List.mem_of_mem_getLast? ha
          exact List.mem_append_left ys this
        have := hnd
        simp only [List.cons_append, List.nodup_cons] at this
        exact this.1 hmem
      rw [isPathF_cons₂]
      exact ⟨h1, h1 ▸ hxa, m, hm, hpa⟩

theorem prevOkF_nil (prv : Nat → Option Nat) : prevOkF prv [] = true := rfl

theorem prevOkF_single (prv : Nat → Option Nat) (a : Nat) :
    prevOkF prv [a] = true := rfl

theorem prevOkF_cons₂ {prv : Nat → Option Nat} {a b : Nat} {l : List Nat} :
    prevOkF prv (a :: b :: l) = true ↔
      prv b = some a ∧ prevOkF prv (b :: l) = true := by
  simp [prevOkF]

theorem prevOkF_congr {prv prv' : Nat → Option Nat} {l : List Nat}
    (h : ∀ j ∈ l, prv j = prv' j) :
    prevOkF prv l = prevOkF prv' l := by
  induction l with
  | nil => rfl
  | cons a l ih =>
    match l with
    | [] => rfl
    | b :: l' =>
      have hb : prv b = prv' b := h b (by simp)
      have := ih (fun x hx => h x (by simp [hx]))
      simp only [prevOkF, hb, this]

theorem prevOkF_append {prv : Nat → Option Nat} {xs ys : List Nat} {a b : Nat}
    (hxs : prevOkF prv xs = true) (hys : prevOkF prv ys = true)
    (ha : xs.getLast? = some a) (hb : ys.head? = some b) (hab : prv b = some a) :
    prevOkF prv (xs ++ ys) = true := by
  induction xs with
  | nil => simp at ha
  | cons x xs ih =>
    match xs with
    | [] =>
      match ys with
      | [] => simp at hb
      | y :: ys' =>
        have hx : x = a := by simpa using ha
        have hy : y = b := by simpa using hb
        subst hx; subst hy
        simp only [List.cons_append, List.nil_append]
        rw [prevOkF_cons₂]
        exact ⟨hab, hys⟩
    | x' :: xs' =>
      rw [prevOkF_cons₂] at hxs
      have ha' : (x' :: xs').getLast? = some a := by
        rw [← ha]; simp [List.getLast?_cons_cons]
      have := ih hxs.2 ha'
      simp only [List.cons_append]
      rw [prevOkF_cons₂]
      exact ⟨hxs.1, by simpa using this⟩

theorem prevOkF_append_left {prv : Nat → Option Nat} {xs ys : List Nat}
    (h : prevOkF prv (xs ++ ys) = true) : prevOkF prv xs = true := by
  induction xs with
  | nil => rfl
  | cons x xs ih =>
    match xs with
    | [] => rfl
    | x' :: xs' =>
      simp only [List.cons_append] at h
      rw [prevOkF_cons₂] at h
      rw [prevOkF_cons₂]
      exact ⟨h.1, ih (by simpa using h.2)⟩

theorem prevOkF_append_right {prv : Nat → Option Nat} {xs ys : List Nat}
    (h : prevOkF prv (xs ++ ys) = true) : prevOkF prv ys = true := by
  induction xs with
  | nil => simpa using h
  | cons x xs ih =>
    match xs, ys with
    | [], [] => rfl
    | [], y :: ys' =>
      simp only [List.cons_append, List.nil_append] at h
      rw [prevOkF_cons₂] at h
      exact h.2
    | x' :: xs', _ =>
      simp only [List.cons_append] at h
      rw [prevOkF_cons₂] at h
      exact ih (by simpa using h.2)

theorem prevOkF_boundary {prv : Nat → Option Nat} {xs ys : List Nat} {a b : Nat}
    (h : prevOkF prv (xs ++ ys) = true)
    (ha : xs.getLast? = some a) (hb : ys.head? = some b) :
    prv b = some a := by
  induction xs with
  | nil => simp at ha
  | cons x xs ih =>
    match xs with
    | [] =>
      match ys with
      | [] => simp at hb
      | y :: ys' =>
        have hx : x = a := by simpa using ha
        have hy : y = b := by simpa using hb
        subst hx; subst hy
        simp only [List.cons_append, List.nil_append] at h
        rw [prevOkF_cons₂] at h
        exact h.1
    | x' :: xs' =>
      simp only [List.cons_append] at h
      rw [prevOkF_cons₂] at h
      have ha' : (x' :: xs').getLast? = some a := by
        rw [← ha]; simp [List.getLast?_cons_cons]
      exact ih (by simpa using h.2) ha'

theorem prevOkF_congr_tail {prv prv' : Nat → Option Nat} {l : List Nat}
    (h : ∀ j ∈ l.tail, prv j = prv' j) :
    prevOkF prv l = prevOkF prv' l := by
  induction l with
  | nil => rfl
  | cons a l ih =>
    match l with
    | [] => rfl
    | b :: l' =>
      have hb : prv b = prv' b := h b (by simp)
      have hrec := ih (fun x hx => h x (by simp; exact Or.inr (by simpa using hx)))
      simp only [prevOkF, hb, hrec]

theorem nodup_length_le {l : List Nat} {n : Nat} (hnd : l.Nodup)
    (hb : ∀ j ∈ l, j < n) : l.length ≤ n := by
  have hsub : l.toFinset ⊆ Finset.range n := by
    intro x hx
    exact Finset.mem_range.mpr (hb x (List.mem_toFinset.mp hx))
  have hcard := Finset.card_le_card hsub
  rwa [List.toFinset_card_of_nodup hnd, Finset.card_range] at hcard

theorem getLast_not_mem_dropLast {l : List Nat} (hnd : l.Nodup) (h : l ≠ []) :
    l.getLast h ∉ l.dropLast := by
  intro hmem
  have hconcat := List.dropLast_concat_getLast h
  have hnd2 : (l.dropLast ++ [l.getLast h]).Nodup := by rwa [hconcat]
  rcases List.nodup_append.mp hnd2 with ⟨-, -, hdisj⟩
  exact hdisj hmem (by simp)

/-! ### Pointwise behaviour of the link functions under storage updates -/

theorem nexts_set_ne {entries : List (Entry T)} {k j : Nat} (e : Entry T) (h : j ≠ k) :
    nexts (entries.set k e) j = nexts entries j := by
  simp [nexts, List.getElem?_set_ne (Ne.symm h)]

theorem prevs_set_ne {entries : List (Entry T)} {k j : Nat} (e : Entry T) (h : j ≠ k) :
    prevs (entries.set k e) j = prevs entries j := by
  simp [prevs, List.getElem?_set_ne (Ne.symm h)]

theorem valOf_set_ne {entries : List (Entry T)} {k j : Nat} (e : Entry T) (h : j ≠ k) :
    valOf (entries.set k e) j = valOf entries j := by
  simp [valOf, List.getElem?_set_ne (Ne.symm h)]

theorem nexts_set_self {entries : List (Entry T)} {k : Nat} (e : Entry T)
    (h : k < entries.length) : nexts (entries.set k e) k = some e.next := by
  simp [nexts, List.getElem?_set_self h]

theorem prevs_set_self {entries : List (Entry T)} {k : Nat} (e : Entry T)
    (h : k < entries.length) : prevs (entries.set k e) k = some e.prev := by
  simp [prevs, List.getElem?_set_self h]

theorem valOf_set_self {entries : List (Entry T)} {k : Nat} (e : Entry T)
    (h : k < entries.length) : valOf (entries.set k e) k = some e.val := by
  simp [valOf, List.getElem?_set_self h]

theorem nexts_set_prev {entries : List (Entry T)} {k : Nat} {ek : Entry T}
    (h : entries[k]? = some ek) (x : T) (q : Nat) :
    nexts (entries.set k ⟨x, q, ek.next⟩) = nexts entries := by
  funext j
  by_cases hj : j = k
  · subst hj
    have hk : j < entries.length := by
      by_contra hk
      rw [List.getElem?_eq_none (by omega)] at h
      exact Option.noConfusion h
    rw [nexts_set_self _ hk]
    simp [nexts, h]
  · exact nexts_set_ne _ hj

theorem prevs_set_next {entries : List (Entry T)} {k : Nat} {ek : Entry T}
    (h : entries[k]? = some ek) (x : T) (r : Nat) :
    prevs (entries.set k ⟨x, ek.prev, r⟩) = prevs entries := by
  funext j
  by_cases hj : j = k
  · subst hj
    have hk : j < entries.length := by
      by_contra hk
      rw [List.getElem?_eq_none (by omega)] at h
      exact Option.noConfusion h
    rw [prevs_set_self _ hk]
    simp [prevs, h]
  · exact prevs_set_ne _ hj

theorem valOf_set_links {entries : List (Entry T)} {k : Nat} {ek : Entry T}
    (h : entries[k]? = some ek) (q r : Nat) :
    valOf (entries.set k ⟨ek.val, q, r⟩) = valOf entries := by
  funext j
  by_cases hj : j = k
  · subst hj
    have hk : j < entries.length := by
      by_contra hk
      rw [List.getElem?_eq_none (by omega)] at h
      exact Option.noConfusion h
    rw [valOf_set_self _ hk]
    simp [valOf, h]
  · exact valOf_set_ne _ hj

theorem nexts_append {entries tl : List (Entry T)} {j : Nat} (h : j < entries.length) :
    nexts (entries ++ tl) j = nexts entries j := by
  simp [nexts, List.getElem?_append_left h]

theorem prevs_append {entries tl : List (Entry T)} {j : Nat} (h : j < entries.length) :
    prevs (entries ++ tl) j = prevs entries j := by
  simp [prevs, List.getElem?_append_left h]

theorem valOf_append {entries tl : List (Entry T)} {j : Nat} (h : j < entries.length) :
    valOf (entries ++ tl) j = valOf entries j := by
  simp [valOf, List.getElem?_append_left h]

theorem getElem?_concat_self {entries : List (Entry T)} (e : Entry T) :
    (entries ++ [e])[entries.length]? = some e := by
  rw [List.getElem?_append_right (Nat.le_refl _)]
  simp

/-! ### Length preservation of the relinking primitives -/

theorem push_front_length {c c' : LRUCache T N} {i : Nat}
    (h : push_front c i = some c') : c'.entries.length = c.entries.length := by
  unfold push_front at h
  split at h
  · simp only [Option.some.injEq] at h; subst h; rfl
  · split at h
    · exact Option.noConfusion h
    · split at h
      · exact Option.noConfusion h
      · simp only [Option.some.injEq] at h; subst h; simp

theorem pop_back_shape {c : LRUCache T N} {i : Nat} {c' : LRUCache T N}
    (h : pop_back c = some (i, c')) :
    i = c.tail ∧ c'.entries = c.entries ∧ c'.head = c.head := by
  unfold pop_back at h
  split at h
  · exact Option.noConfusion h
  · simp only [Option.some.injEq, Prod.mk.injEq] at h
    obtain ⟨rfl, rfl⟩ := h
    exact ⟨rfl, rfl, rfl⟩

theorem remove_length {c c' : LRUCache T N} {i : Nat}
    (h : remove c i = some c') : c'.entries.length = c.entries.length := by
  unfold remove at h
  split at h
  · exact Option.noConfusion h
  · simp only [Option.bind_eq_bind, Option.bind_eq_some] at h
    obtain ⟨c1, h1, h2⟩ := h
    have hc1 : c1.entries.length = c.entries.length := by
      split at h1
      · simp only [Option.some.injEq] at h1; subst h1; rfl
      · split at h1
        · exact Option.noConfusion h1
        · simp only [Option.some.injEq] at h1; subst h1; simp
    split at h2
    · simp only [Option.some.injEq] at h2; subst h2; exact hc1
    · split at h2
      · exact Option.noConfusion h2
      · simp only [Option.some.injEq] at h2; subst h2; simpa using hc1

theorem touch_index_length {c c' : LRUCache T N} {i : Nat}
    (h : touch_index c i = some c') : c'.entries.length = c.entries.length := by
  unfold touch_index at h
  split at h
  · simp only [Option.some.injEq] at h; subst h; rfl
  · simp only [Option.bind_eq_bind, Option.bind_eq_some] at h
    obtain ⟨c1, h1, h2⟩ := h
    rw [push_front_length h2, remove_length h1]

theorem touchAux_length {p : T → Bool} {c : LRUCache T N} {pos fuel : Nat}
    {b : Bool} {c' : LRUCache T N}
    (h : touchAux p c pos fuel = some (b, c')) :
    c'.entries.length = c.entries.length := by
  induction fuel generalizing pos with
  | zero => exact Option.noConfusion h
  | succ fuel ih =>
    unfold touchAux at h
    split at h
    · simp only [Option.some.injEq, Prod.mk.injEq] at h
      rw [← h.2]
    · split at h
      · simp only [Option.map_eq_some'] at h
        obtain ⟨c1, h1, h2⟩ := h
        injection h2 with h2a h2b
        subst h2b
        exact touch_index_length h1
      · exact ih h

theorem touch_length {p : T → Bool} {c : LRUCache T N} {b : Bool} {c' : LRUCache T N}
    (h : touch c p = some (b, c')) : c'.entries.length = c.entries.length :=
  touchAux_length h

theorem insert_length {c : LRUCache T N} {v : T} {r : Option T} {c' : LRUCache T N}
    (h : insert c v = some (r, c')) :
    c'.entries.length = if c.entries.length = N then c.entries.length
                        else c.entries.length + 1 := by
  unfold insert at h
  split at h
  · rename_i hfull
    simp only [Option.bind_eq_bind, Option.bind_eq_some] at h
    obtain ⟨⟨i, c1⟩, h1, h2⟩ := h
    obtain ⟨-, he, -⟩ := pop_back_shape h1
    split at h2
    · exact Option.noConfusion h2
    · simp only [Option.map_eq_some'] at h2
      obtain ⟨c3, h3, h4⟩ := h2
      have hl := push_front_length h3
      injection h4 with h4a h4b
      subst h4b
      rw [hfull, if_pos rfl, hl]
      simp [he, hfull]
  · rename_i hfull
    split at h
    · simp only [Option.map_eq_some'] at h
      obtain ⟨c2, h2, h3⟩ := h
      have hl := push_front_length h2
      injection h3 with h3a h3b
      subst h3b
      rw [if_neg hfull, hl]
      simp
    · exact Option.noConfusion h

/-! ### Specifications of the relinking primitives on chain-shaped states -/

theorem push_front_spec {c : LRUCache T N} {i : Nat} {l : List Nat}
    (hpath : isPathF (nexts c.entries) c.tail c.head l = true)
    (hprev : prevOkF (prevs c.entries) l = true)
    (hnd : l.Nodup)
    (hbound : ∀ j ∈ l, j < c.entries.length)
    (hi : i < c.entries.length) (hmem : i ∉ l)
    (hlen1 : c.entries.length ≠ 1) :
    ∃ c', push_front c i = some c' ∧
      c'.entries.length = c.entries.length ∧ c'.head = i ∧ c'.tail = c.tail ∧
      valOf c'.entries = valOf c.entries ∧
      isPathF (nexts c'.entries) c.tail i (i :: l) = true ∧
      prevOkF (prevs c'.entries) (i :: l) = true := by
  have hlne : l ≠ [] := isPathF_ne_nil hpath
  have hh : l.head? = some c.head := isPathF_head hpath
  have hheadmem : c.head ∈ l := List.mem_of_mem_head? hh
  have hhead_lt : c.head < c.entries.length := hbound _ hheadmem
  have hih : i ≠ c.head := fun he => hmem (he ▸ hheadmem)
  have htailmem : c.tail ∈ l := List.mem_of_mem_getLast? (isPathF_getLast hpath)
  have hit : i ≠ c.tail := fun he => hmem (he ▸ htailmem)
  have hei : c.entries[i]? = some c.entries[i] := List.getElem?_eq_getElem hi
  have heh : (c.entries.set i ⟨c.entries[i].val, c.entries[i].prev, c.head⟩)[c.head]? =
      some c.entries[c.head] := by
    rw [List.getElem?_set_ne hih]
    exact List.getElem?_eq_getElem hhead_lt
  have hvE1 : valOf (c.entries.set i ⟨c.entries[i].val, c.entries[i].prev, c.head⟩) =
      valOf c.entries := valOf_set_links hei _ _
  have hpE1 : prevs (c.entries.set i ⟨c.entries[i].val, c.entries[i].prev, c.head⟩) =
      prevs c.entries := prevs_set_next hei _ _
  have hnE2 : nexts ((c.entries.set i ⟨c.entries[i].val, c.entries[i].prev, c.head⟩).set
        c.head ⟨c.entries[c.head].val, i, c.entries[c.head].next⟩) =
      nexts (c.entries.set i ⟨c.entries[i].val, c.entries[i].prev, c.head⟩) :=
    nexts_set_prev heh _ _
  refine ⟨⟨(c.entries.set i ⟨c.entries[i].val, c.entries[i].prev, c.head⟩).set
      c.head ⟨c.entries[c.head].val, i, c.entries[c.head].next⟩, i, c.tail⟩,
    ?_, by simp, rfl, rfl, ?_, ?_, ?_⟩
  · unfold push_front
    rw [if_neg hlen1, hei]
    dsimp only
    rw [heh]
  · rw [valOf_set_links heh, hvE1]
  · rcases l with _ | ⟨k, l'⟩
    · exact absurd rfl hlne
    · have hk : k = c.head := by simpa using hh
      subst hk
      rw [isPathF_cons₂]
      refine ⟨rfl, hit, c.head, ?_, ?_⟩
      · rw [hnE2]
        have := nexts_set_self
          ⟨c.entries[i].val, c.entries[i].prev, c.head⟩ hi
        simpa using this
      · have hcongr : ∀ j ∈ (c.head :: l').dropLast,
            nexts ((c.entries.set i ⟨c.entries[i].val, c.entries[i].prev, c.head⟩).set
              c.head ⟨c.entries[c.head].val, i, c.entries[c.head].next⟩) j =
              nexts c.entries j := by
          intro j hj
          have hjl : j ∈ c.head :: l' := List.dropLast_subset _ hj
          have hji : j ≠ i := fun he => hmem (he ▸ hjl)
          rw [hnE2, nexts_set_ne _ hji]
        rw [isPathF_congr hcongr (by simp)]
        exact hpath
  · rcases l with _ | ⟨k, l'⟩
    · exact absurd rfl hlne
    · have hk : k = c.head := by simpa using hh
      subst hk
      rw [prevOkF_cons₂]
      constructor
      · have hklt : c.head < (c.entries.set i
            ⟨c.entries[i].val, c.entries[i].prev, c.head⟩).length := by
          simpa using hhead_lt
        have := prevs_set_self
          ⟨c.entries[c.head].val, i, c.entries[c.head].next⟩ hklt
        simpa using this
      · have hcongr : ∀ j ∈ (c.head :: l').tail,
            prevs ((c.entries.set i ⟨c.entries[i].val, c.entries[i].prev, c.head⟩).set
              c.head ⟨c.entries[c.head].val, i, c.entries[c.head].next⟩) j =
              prevs c.entries j := by
          intro j hj
          have hjl' : j ∈ l' := by simpa using hj
          have hjk : j ≠ c.head := fun he => (List.nodup_cons.mp hnd).1 (he ▸ hjl')
          have hji : j ≠ i := fun he => hmem (he ▸ List.mem_cons_of_mem c.head hjl')
          rw [prevs_set_ne _ hjk, hpE1]
        rw [prevOkF_congr_tail hcongr]
        exact hprev

theorem remove_spec {c : LRUCache T N} {l₁ l₂ : List Nat} {i : Nat}
    (hpath : isPathF (nexts c.entries) c.tail c.head (l₁ ++ i :: l₂) = true)
    (hprev : prevOkF (prevs c.entries) (l₁ ++ i :: l₂) = true)
    (hnd : (l₁ ++ i :: l₂).Nodup)
    (hbound : ∀ j ∈ l₁ ++ i :: l₂, j < c.entries.length)
    (hl₁ : l₁ ≠ []) :
    ∃ c', remove c i = some c' ∧
      c'.entries.length = c.entries.length ∧ c'.head = c.head ∧
      valOf c'.entries = valOf c.entries ∧
      isPathF (nexts c'.entries) c'.tail c'.head (l₁ ++ l₂) = true ∧
      prevOkF (prevs c'.entries) (l₁ ++ l₂) = true := by
  obtain ⟨hnd₁, hnd₂, hdisj⟩ := List.nodup_append.mp hnd
  have hil₁ : i ∉ l₁ := fun hi => hdisj hi (by simp)
  have hl₂dis : ∀ j ∈ l₁, j ∉ l₂ := fun j hj hj2 => hdisj hj (by simp [hj2])
  have hil₂ : i ∉ l₂ := (List.nodup_cons.mp hnd₂).1
  obtain ⟨p, b, hp_last, hb_head, hp1, hpi, hp2⟩ :=
    isPathF_split hpath hl₁ (by simp) hnd
  have hbi : i = b := by simpa using hb_head
  subst hbi
  have hpl₁ : p ∈ l₁ := List.mem_of_mem_getLast? hp_last
  have hplt : p < c.entries.length := hbound _ (List.mem_append_left _ hpl₁)
  have hilt : i < c.entries.length := hbound _ (by simp)
  have hheadl₁ : c.head ∈ l₁ := List.mem_of_mem_head? (isPathF_head hp1)
  have hik : i ≠ c.head := fun he => hil₁ (he ▸ hheadl₁)
  have hpi' : p ≠ i := fun he => hil₁ (he ▸ hpl₁)
  have hei : c.entries[i]? = some c.entries[i] := List.getElem?_eq_getElem hilt
  have he_prev : (c.entries[i]).prev = p := by
    have h := prevOkF_boundary hprev hp_last rfl
    simp only [prevs, hei, Option.map_some', Option.some.injEq] at h
    exact h
  have hep : c.entries[p]? = some c.entries[p] := List.getElem?_eq_getElem hplt
  have hpE1 : prevs (c.entries.set p
      ⟨c.entries[p].val, c.entries[p].prev, c.entries[i].next⟩) = prevs c.entries :=
    prevs_set_next hep _ _
  have hvE1 : valOf (c.entries.set p
      ⟨c.entries[p].val, c.entries[p].prev, c.entries[i].next⟩) = valOf c.entries :=
    valOf_set_links hep _ _
  have hnE1p : nexts (c.entries.set p
      ⟨c.entries[p].val, c.entries[p].prev, c.entries[i].next⟩) p =
      some (c.entries[i]).next := by
    have := nexts_set_self
      ⟨c.entries[p].val, c.entries[p].prev, c.entries[i].next⟩ hplt
    simpa using this
  have hnE1 : ∀ j, j ≠ p → nexts (c.entries.set p
      ⟨c.entries[p].val, c.entries[p].prev, c.entries[i].next⟩) j =
      nexts c.entries j := fun j hj => nexts_set_ne _ hj
  have hpnotdrop : p ∉ l₁.dropLast := by
    have hgl : l₁.getLast hl₁ = p := by
      have h2 := hp_last
      rw [List.getLast?_eq_getLast l₁ hl₁] at h2
      exact Option.some.inj h2
    rw [← hgl]
    exact getLast_not_mem_dropLast hnd₁ hl₁
  rcases l₂ with _ | ⟨b₂, l₂'⟩
  · -- the removed slot is the tail: only the predecessor's `next` is patched
    have hitail : i = c.tail := by
      rw [isPathF_single] at hp2
      exact hp2.2
    refine ⟨⟨c.entries.set p ⟨c.entries[p].val, c.entries[p].prev, c.entries[i].next⟩,
        c.head, p⟩, ?_, by simp, rfl, hvE1, ?_, ?_⟩
    · unfold remove
      rw [hei]
      dsimp only
      rw [if_neg hik, he_prev, hep]
      dsimp only [Option.some_bind]
      rw [if_pos (by simpa using hitail)]
    · have hcongr : ∀ j ∈ l₁.dropLast,
          nexts (c.entries.set p
            ⟨c.entries[p].val, c.entries[p].prev, c.entries[i].next⟩) j =
          nexts c.entries j := by
        intro j hj
        exact hnE1 j (fun he => hpnotdrop (he ▸ hj))
      simp only [List.append_nil]
      rw [isPathF_congr hcongr (isPathF_head hp1)]
      exact hp1
    · simp only [List.append_nil]
      rw [prevOkF_congr_tail (fun j _ => congrFun hpE1 j)]
      exact prevOkF_append_left hprev
  · -- the removed slot is interior: both neighbours are patched
    have hb₂l₂ : b₂ ∈ b₂ :: l₂' := by simp
    have htail_mem : c.tail ∈ b₂ :: l₂' := by
      have hgl := isPathF_getLast hp2
      have h2 : (i :: b₂ :: l₂').getLast? = (b₂ :: l₂').getLast? := by
        simp [List.getLast?_cons_cons]
      rw [h2] at hgl
      exact List.mem_of_mem_getLast? hgl
    have hitail : i ≠ c.tail := fun he => hil₂ (he ▸ htail_mem)
    have he_next : (c.entries[i]).next = b₂ := by
      rw [isPathF_cons₂] at hp2
      obtain ⟨-, -, m, hm, hpm⟩ := hp2
      have hbm : b₂ = m := by simpa using isPathF_head hpm
      rw [nexts, hei] at hm
      simp only [Option.map_some', Option.some.injEq] at hm
      rw [← hbm] at hm
      exact hm
    have hp2' : isPathF (nexts c.entries) c.tail b₂ (b₂ :: l₂') = true := by
      rw [isPathF_cons₂] at hp2
      obtain ⟨-, -, m, hm, hpm⟩ := hp2
      have hbm : b₂ = m := by simpa using isPathF_head hpm
      rw [← hbm] at hpm
      exact hpm
    rw [he_next] at hpE1 hvE1 hnE1p hnE1
    have hb₂p : b₂ ≠ p := fun he => hl₂dis p hpl₁ (he ▸ hb₂l₂)
    have hb₂lt : b₂ < c.entries.length := hbound _ (by simp)
    have heb : (c.entries.set p
        ⟨c.entries[p].val, c.entries[p].prev, b₂⟩)[b₂]? =
        some c.entries[b₂] := by
      rw [List.getElem?_set_ne (fun he => hb₂p he.symm)]
      exact List.getElem?_eq_getElem hb₂lt
    have hnE2 : nexts ((c.entries.set p
        ⟨c.entries[p].val, c.entries[p].prev, b₂⟩).set b₂
          ⟨c.entries[b₂].val, p, c.entries[b₂].next⟩) =
        nexts (c.entries.set p
        ⟨c.entries[p].val, c.entries[p].prev, b₂⟩) :=
      nexts_set_prev heb _ _
    have hvE2 : valOf ((c.entries.set p
        ⟨c.entries[p].val, c.entries[p].prev, b₂⟩).set b₂
          ⟨c.entries[b₂].val, p, c.entries[b₂].next⟩) =
        valOf c.entries := by
      rw [valOf_set_links heb, hvE1]
    have hpE2ne : ∀ j, j ≠ b₂ → prevs ((c.entries.set p
        ⟨c.entries[p].val, c.entries[p].prev, b₂⟩).set b₂
          ⟨c.entries[b₂].val, p, c.entries[b₂].next⟩) j =
        prevs c.entries j := by
      intro j hj
      rw [prevs_set_ne _ hj, hpE1]
    have hpE2b : prevs ((c.entries.set p
        ⟨c.entries[p].val, c.entries[p].prev, b₂⟩).set b₂
          ⟨c.entries[b₂].val, p, c.entries[b₂].next⟩) b₂ =
        some p := by
      have hblt' : b₂ < (c.entries.set p
          ⟨c.entries[p].val, c.entries[p].prev, b₂⟩).length := by
        simpa using hb₂lt
      have := prevs_set_self
        ⟨c.entries[b₂].val, p, c.entries[b₂].next⟩ hblt'
      rw [this]
    refine ⟨⟨(c.entries.set p
        ⟨c.entries[p].val, c.entries[p].prev, b₂⟩).set b₂
          ⟨c.entries[b₂].val, p, c.entries[b₂].next⟩,
        c.head, c.tail⟩, ?_, by simp, rfl, hvE2, ?_, ?_⟩
    · unfold remove
      rw [hei]
      dsimp only
      rw [if_neg hik, he_prev, he_next, hep]
      dsimp only [Option.some_bind]
      rw [if_neg (by simpa using hitail), heb]
    · refine isPathF_join (a := p) (b := b₂) ?_ ?_ ?_ hp_last ?_
      · have hcongr : ∀ j ∈ l₁.dropLast,
            nexts ((c.entries.set p
              ⟨c.entries[p].val, c.entries[p].prev, b₂⟩).set b₂
                ⟨c.entries[b₂].val, p, c.entries[b₂].next⟩) j =
            nexts c.entries j := by
          intro j hj
          rw [hnE2]
          exact hnE1 j (fun he => hpnotdrop (he ▸ hj))
        rw [isPathF_congr hcongr (isPathF_head hp1)]
        exact hp1
      · rw [hnE2, hnE1p]
      · have hcongr : ∀ j ∈ (b₂ :: l₂').dropLast,
            nexts ((c.entries.set p
              ⟨c.entries[p].val, c.entries[p].prev, b₂⟩).set b₂
                ⟨c.entries[b₂].val, p, c.entries[b₂].next⟩) j =
            nexts c.entries j := by
          intro j hj
          have hjmem : j ∈ b₂ :: l₂' := List.dropLast_subset _ hj
          have hjp : j ≠ p := fun he => hl₂dis p hpl₁ (he ▸ hjmem)
          rw [hnE2]
          exact hnE1 j hjp
        rw [isPathF_congr hcongr (isPathF_head hp2')]
        exact hp2'
      · exact fun j hj he => hl₂dis j hj (he ▸ htail_mem)
    · refine prevOkF_append (a := p) (b := b₂) ?_ ?_ hp_last (by simp) hpE2b
      · have hcongr : ∀ j ∈ l₁.tail,
            prevs ((c.entries.set p
              ⟨c.entries[p].val, c.entries[p].prev, b₂⟩).set b₂
                ⟨c.entries[b₂].val, p, c.entries[b₂].next⟩) j =
            prevs c.entries j := by
          intro j hj
          have hjmem : j ∈ l₁ := List.tail_subset _ hj
          exact hpE2ne j (fun he => hl₂dis j hjmem (he ▸ hb₂l₂))
        rw [prevOkF_congr_tail hcongr]
        exact prevOkF_append_left hprev
      · have hpr2 : prevOkF (prevs c.entries) (b₂ :: l₂') = true := by
          have hr := prevOkF_append_right hprev
          rw [prevOkF_cons₂] at hr
          exact hr.2
        have hcongr : ∀ j ∈ (b₂ :: l₂').tail,
            prevs ((c.entries.set p
              ⟨c.entries[p].val, c.entries[p].prev, b₂⟩).set b₂
                ⟨c.entries[b₂].val, p, c.entries[b₂].next⟩) j =
            prevs c.entries j := by
          intro j hj
          have hjl₂' : j ∈ l₂' := by simpa using hj
          have hjb : j ≠ b₂ := fun he => (List.nodup_cons.mp
            (List.nodup_cons.mp hnd₂).2).1 (he ▸ hjl₂')
          exact hpE2ne j hjb
        rw [prevOkF_congr_tail hcongr]
        exact hpr2

theorem touch_index_spec {c : LRUCache T N} {l₁ l₂ : List Nat} {i : Nat}
    (hpath : isPathF (nexts c.entries) c.tail c.head (l₁ ++ i :: l₂) = true)
    (hprev : prevOkF (prevs c.entries) (l₁ ++ i :: l₂) = true)
    (hnd : (l₁ ++ i :: l₂).Nodup)
    (hbound : ∀ j ∈ l₁ ++ i :: l₂, j < c.entries.length) :
    ∃ c', touch_index c i = some c' ∧
      c'.entries.length = c.entries.length ∧ c'.head = i ∧
      valOf c'.entries = valOf c.entries ∧
      isPathF (nexts c'.entries) c'.tail i (i :: (l₁ ++ l₂)) = true ∧
      prevOkF (prevs c'.entries) (i :: (l₁ ++ l₂)) = true := by
  by_cases hik : i = c.head
  · -- promoting the head is a no-op, and then the chain starts at `i` already
    have hl₁nil : l₁ = [] := by
      rcases l₁ with _ | ⟨a, l₁'⟩
      · rfl
      · exfalso
        have hh : a = c.head := by simpa using isPathF_head hpath
        obtain ⟨-, -, hdisj⟩ := List.nodup_append.mp hnd
        exact hdisj (show i ∈ a :: l₁' by simp [hh, hik]) (by simp)
    subst hl₁nil
    refine ⟨c, ?_, rfl, hik.symm, rfl, ?_, ?_⟩
    · unfold touch_index
      rw [if_pos hik]
    · simpa using hik ▸ hpath
    · simpa using hprev
  · have hl₁ : l₁ ≠ [] := by
      rintro rfl
      exact hik (by simpa using isPathF_head hpath)
    obtain ⟨c₁, hrem, hlen₁, hhead₁, hval₁, hpath₁, hprev₁⟩ :=
      remove_spec hpath hprev hnd hbound hl₁
    have hsub : (l₁ ++ l₂).Sublist (l₁ ++ i :: l₂) :=
      List.Sublist.append_left (List.sublist_cons_self i l₂) l₁
    have hnd' : (l₁ ++ l₂).Nodup := hnd.sublist hsub
    have hbound' : ∀ j ∈ l₁ ++ l₂, j < c₁.entries.length := fun j hj => by
      rw [hlen₁]; exact hbound j (hsub.subset hj)
    have hilt : i < c₁.entries.length := by
      rw [hlen₁]; exact hbound i (by simp)
    have hmem : i ∉ l₁ ++ l₂ := by
      obtain ⟨hnd₁, hnd₂, hdisj⟩ := List.nodup_append.mp hnd
      intro hmem
      rcases List.mem_append.mp hmem with h1 | h2
      · exact hdisj h1 (by simp)
      · exact (List.nodup_cons.mp hnd₂).1 h2
    have hlen2 : 2 ≤ c.entries.length := by
      have hlistlen : 2 ≤ (l₁ ++ i :: l₂).length := by
        rcases l₁ with _ | ⟨a, l₁'⟩
        · exact absurd rfl hl₁
        · simp; omega
      have := nodup_length_le hnd hbound
      omega
    have hlen1 : c₁.entries.length ≠ 1 := by rw [hlen₁]; omega
    obtain ⟨c', hpf, hlen', hhead', htail', hval', hpath', hprev'⟩ :=
      push_front_spec hpath₁ hprev₁ hnd' hbound' hilt hmem hlen1
    refine ⟨c', ?_, by rw [hlen', hlen₁], hhead', by rw [hval', hval₁], ?_, hprev'⟩
    · unfold touch_index
      rw [if_neg hik, hrem, Option.some_bind]
      exact hpf
    · rw [htail']
      exact hpath'

theorem touchAux_spec {p : T → Bool} {c : LRUCache T N} {l : List Nat}
    {pos fuel : Nat}
    (hpath : isPathF (nexts c.entries) c.tail pos l = true)
    (hbound : ∀ j ∈ l, j < c.entries.length)
    (hN : N ≤ 65535) (hlenN : c.entries.length ≤ N)
    (hfuel : l.length + 1 ≤ fuel) :
    touchAux p c pos fuel =
      match l.find? (fun j => ((c.entries[j]?).map (fun e => p e.val)).getD false) with
      | some j => (touch_index c j).map fun c' => (true, c')
      | none => some (false, c) := by
  induction l generalizing pos fuel with
  | nil => simp [isPathF] at hpath
  | cons j l ih =>
    have hjpos : j = pos := by simpa using isPathF_head hpath
    subst hjpos
    have hjlt : j < c.entries.length := hbound j (by simp)
    have hej : c.entries[j]? = some c.entries[j] := List.getElem?_eq_getElem hjlt
    obtain ⟨fuel, rfl⟩ : ∃ f, fuel = f + 1 := ⟨fuel - 1, by omega⟩
    unfold touchAux
    rw [hej]
    dsimp only
    by_cases hp : p c.entries[j].val
    · rw [if_pos hp, List.find?_cons_of_pos]
      · simp [hej, hp]
    · rw [if_neg hp, List.find?_cons_of_neg]
      swap
      · simp [hej, hp]
      match l with
      | [] =>
        rw [isPathF_single] at hpath
        rw [if_pos hpath.2]
        have hNmod : N % 65536 = N := Nat.mod_eq_of_lt (by omega)
        rw [hNmod]
        have hfuel1 : 1 ≤ fuel := by
          simp only [List.length_cons, List.length_nil] at hfuel
          omega
        obtain ⟨fuel, rfl⟩ : ∃ f, fuel = f + 1 := ⟨fuel - 1, by omega⟩
        unfold touchAux
        rw [List.getElem?_eq_none hlenN]
        simp
      | k :: l' =>
        rw [isPathF_cons₂] at hpath
        obtain ⟨-, htl, m, hm, hpm⟩ := hpath
        rw [if_neg htl]
        have hm' : (c.entries[j]).next = m := by
          rw [nexts, hej] at hm
          simpa using hm
        rw [hm']
        refine ih hpm (fun x hx => hbound x (by simp [hx])) ?_
        simp only [List.length_cons] at hfuel ⊢
        omega

theorem iterFrom_spec {c : LRUCache T N} {l : List Nat} {pos fuel : Nat}
    (hpath : isPathF (nexts c.entries) c.tail pos l = true)
    (hbound : ∀ j ∈ l, j < c.entries.length)
    (hN : N ≤ 65535) (hlenN : c.entries.length ≤ N)
    (hfuel : l.length + 1 ≤ fuel) :
    iterFrom c pos fuel = l.filterMap (valOf c.entries) := by
  induction l generalizing pos fuel with
  | nil => simp [isPathF] at hpath
  | cons j l ih =>
    have hjpos : j = pos := by simpa using isPathF_head hpath
    subst hjpos
    have hjlt : j < c.entries.length := hbound j (by simp)
    have hej : c.entries[j]? = some c.entries[j] := List.getElem?_eq_getElem hjlt
    obtain ⟨fuel, rfl⟩ : ∃ f, fuel = f + 1 := ⟨fuel - 1, by omega⟩
    unfold iterFrom
    rw [hej]
    dsimp only
    rw [List.filterMap_cons]
    have hval : valOf c.entries j = some c.entries[j].val := by
      rw [valOf, hej]; rfl
    rw [hval]
    match l with
    | [] =>
      rw [isPathF_single] at hpath
      rw [if_pos hpath.2]
      have hNmod : N % 65536 = N := Nat.mod_eq_of_lt (by omega)
      rw [hNmod]
      have hfuel1 : 1 ≤ fuel := by
        simp only [List.length_cons, List.length_nil] at hfuel
        omega
      obtain ⟨fuel, rfl⟩ : ∃ f, fuel = f + 1 := ⟨fuel - 1, by omega⟩
      unfold iterFrom
      rw [List.getElem?_eq_none hlenN]
      simp
    | k :: l' =>
      rw [isPathF_cons₂] at hpath
      obtain ⟨-, htl, m, hm, hpm⟩ := hpath
      rw [if_neg htl]
      have hm' : (c.entries[j]).next = m := by
        rw [nexts, hej] at hm
        simpa using hm
      rw [hm']
      rw [ih hpm (fun x hx => hbound x (by simp [hx]))
        (by simp only [List.length_cons] at hfuel ⊢; omega)]

theorem chainInv_singleton (e : Entry T) :
    ChainInv (⟨[e], 0, 0⟩ : LRUCache T N) [0] := by
  refine ⟨?_, by simp, by simp, by simp, rfl⟩
  simp [isPathF]

theorem insert_empty_spec {c : LRUCache T N} (hlen : c.entries.length = 0)
    (hN : 0 < N) (v : T) :
    insert c v = some (none, ⟨[⟨v, 0, 0⟩], 0, 0⟩) := by
  have hne : c.entries = [] := List.length_eq_zero.mp hlen
  have hpf : push_front (⟨[⟨v, 0, 0⟩], c.head, c.tail⟩ : LRUCache T N) (0 % 65536) =
      some ⟨[⟨v, 0, 0⟩], 0, 0⟩ := by
    unfold push_front
    rw [if_pos (by simp)]
  unfold insert
  rw [if_neg (by omega), if_pos (by omega), hne]
  simp only [List.nil_append, List.length_nil]
  rw [hpf]
  rfl

theorem insert_not_full_spec {c : LRUCache T N} {l : List Nat}
    (hchain : ChainInv c l) (hlt : c.entries.length < N)
    (hsmall : c.entries.length < 65536) (v : T) :
    ∃ c', insert c v = some (none, c') ∧
      c'.entries.length = c.entries.length + 1 ∧
      c'.head = c.entries.length ∧ c'.tail = c.tail ∧
      valOf c'.entries c.entries.length = some v ∧
      (∀ j, j < c.entries.length → valOf c'.entries j = valOf c.entries j) ∧
      ChainInv c' (c.entries.length :: l) := by
  obtain ⟨hpath, hnd, hlen, hbound, hprev⟩ := hchain
  have hlne : l ≠ [] := isPathF_ne_nil hpath
  have hn1 : 1 ≤ c.entries.length := by
    rcases l with _ | ⟨a, l'⟩
    · exact absurd rfl hlne
    · rw [← hlen]; simp
  have hmod : c.entries.length % 65536 = c.entries.length := Nat.mod_eq_of_lt hsmall
  have hbound' : ∀ j ∈ l, j < (c.entries ++ [(⟨v, 0, 0⟩ : Entry T)]).length := by
    intro j hj
    simp only [List.length_append, List.length_cons, List.length_nil]
    have := hbound j hj
    omega
  have hpath₁ : isPathF (nexts (c.entries ++ [(⟨v, 0, 0⟩ : Entry T)])) c.tail c.head l
      = true := by
    have hcongr : ∀ j ∈ l.dropLast,
        nexts (c.entries ++ [(⟨v, 0, 0⟩ : Entry T)]) j = nexts c.entries j := by
      intro j hj
      exact nexts_append (hbound j (List.dropLast_subset _ hj))
    rw [isPathF_congr hcongr (isPathF_head hpath)]
    exact hpath
  have hprev₁ : prevOkF (prevs (c.entries ++ [(⟨v, 0, 0⟩ : Entry T)])) l = true := by
    have hcongr : ∀ j ∈ l.tail,
        prevs (c.entries ++ [(⟨v, 0, 0⟩ : Entry T)]) j = prevs c.entries j := by
      intro j hj
      exact prevs_append (hbound j (List.tail_subset _ hj))
    rw [prevOkF_congr_tail hcongr]
    exact hprev
  have hmem : c.entries.length ∉ l := fun hm => by
    have := hbound _ hm
    omega
  obtain ⟨c', hpf, hlen', hhead', htail', hval', hpath', hprev'⟩ :=
    push_front_spec (c := ⟨c.entries ++ [⟨v, 0, 0⟩], c.head, c.tail⟩)
      hpath₁ hprev₁ hnd hbound'
      (by simp only [List.length_append, List.length_cons, List.length_nil]; omega)
      hmem
      (by simp only [List.length_append, List.length_cons, List.length_nil]; omega)
  refine ⟨c', ?_, ?_, hhead', htail', ?_, ?_, ?_, ?_, ?_, ?_, ?_⟩
  · unfold insert
    rw [if_neg (by omega), if_pos hlt, hmod, hpf]
    rfl
  · rw [hlen']; simp
  · rw [congrFun hval' c.entries.length, valOf]
    rw [getElem?_concat_self]
    rfl
  · intro j hj
    rw [congrFun hval' j, valOf_append hj]
  · rw [htail', hhead']
    exact hpath'
  · exact List.nodup_cons.mpr ⟨hmem, hnd⟩
  · rw [hlen']
    simp [hlen]
  · intro j hj
    rw [hlen']
    rcases List.mem_cons.mp hj with rfl | hj'
    · simp
    · have := hbound j hj'
      simp only [List.length_append, List.length_cons, List.length_nil]
      omega
  · exact hprev'

theorem insert_full_spec {c : LRUCache T N} {l : List Nat}
    (hchain : ChainInv c l) (hfull : c.entries.length = N) (v : T) :
    ∃ w c' l', insert c v = some (some w, c') ∧
      valOf c.entries c.tail = some w ∧
      l = l' ++ [c.tail] ∧
      c'.entries.length = c.entries.length ∧
      c'.head = c.tail ∧
      valOf c'.entries c.tail = some v ∧
      (∀ j, j ≠ c.tail → valOf c'.entries j = valOf c.entries j) ∧
      ChainInv c' (c.tail :: l') := by
  obtain ⟨hpath, hnd, hlen, hbound, hprev⟩ := hchain
  have hlne : l ≠ [] := isPathF_ne_nil hpath
  have hgl : l.getLast? = some c.tail := isPathF_getLast hpath
  have hglast : l.getLast hlne = c.tail := by
    have h2 := hgl
    rw [List.getLast?_eq_getLast l hlne] at h2
    exact Option.some.inj h2
  have hdecomp : l = l.dropLast ++ [c.tail] := by
    rw [← hglast]
    exact (List.dropLast_concat_getLast hlne).symm
  have htlt : c.tail < c.entries.length :=
    hbound _ (List.mem_of_mem_getLast? hgl)
  have het : c.entries[c.tail]? = some c.entries[c.tail] :=
    List.getElem?_eq_getElem htlt
  have hw : valOf c.entries c.tail = some (c.entries[c.tail]).val := by
    rw [valOf, het]; rfl
  rcases hinit : l.dropLast with _ | ⟨i₀, init'⟩
  · -- a single-slot chain: head = tail, and `push_front` takes its short branch
    rw [hinit] at hdecomp
    simp only [List.nil_append] at hdecomp
    have hlen1 : c.entries.length = 1 := by rw [← hlen, hdecomp]; rfl
    have hpop : pop_back c = some (c.tail, ⟨c.entries, c.head,
        (c.entries[c.tail]).prev⟩) := by
      unfold pop_back
      rw [het]
    have hpf : push_front (⟨c.entries.set c.tail ⟨v, 0, 0⟩, c.head,
        (c.entries[c.tail]).prev⟩ : LRUCache T N) c.tail =
        some ⟨c.entries.set c.tail ⟨v, 0, 0⟩, c.tail, c.tail⟩ := by
      unfold push_front
      rw [if_pos (by simpa using hlen1)]
    refine ⟨(c.entries[c.tail]).val,
      ⟨c.entries.set c.tail ⟨v, 0, 0⟩, c.tail, c.tail⟩, [], ?_, hw, hdecomp,
      by simp, rfl, ?_, ?_, ?_, ?_, ?_, ?_, ?_⟩
    · unfold insert
      rw [if_pos hfull, hpop, Option.some_bind]
      dsimp only
      rw [het]
      dsimp only
      rw [hpf]
      rfl
    · rw [valOf_set_self _ htlt]
    · intro j hj
      rw [valOf_set_ne _ hj]
    · simp [isPathF]
    · simp
    · simpa using hlen1.symm
    · intro j hj
      simp only [List.mem_singleton] at hj
      subst hj
      simpa using htlt
    · rfl
  · -- at least two slots: the evicted tail is relinked through `push_front`
    have hinitne : l.dropLast ≠ [] := by rw [hinit]; simp
    obtain ⟨p, b, hp_last, hb_head, hp1, hpb, hp2⟩ :=
      isPathF_split (hdecomp ▸ hpath) hinitne (by simp) (hdecomp ▸ hnd)
    have hbt : c.tail = b := by simpa using hb_head
    subst hbt
    obtain ⟨hnd₁, -, hdisj⟩ := List.nodup_append.mp (hdecomp ▸ hnd)
    have htmem : c.tail ∉ l.dropLast := fun hm => hdisj hm (by simp)
    have hplast : p ∈ l.dropLast := List.mem_of_mem_getLast? hp_last
    have hprevdec : prevOkF (prevs c.entries) (l.dropLast ++ [c.tail]) = true := by
      rw [← hdecomp]; exact hprev
    have he_prev : (c.entries[c.tail]).prev = p := by
      have h := prevOkF_boundary hprevdec hp_last rfl
      simp only [prevs, het, Option.map_some', Option.some.injEq] at h
      exact h
    have hboundinit : ∀ j ∈ l.dropLast, j < c.entries.length :=
      fun j hj => hbound j (List.dropLast_subset _ hj)
    have hlen2 : 2 ≤ c.entries.length := by
      have h2 : 2 ≤ l.length := by
        conv_rhs => rw [hdecomp, hinit]
        simp only [List.length_append, List.length_cons, List.length_nil]
        omega
      omega
    -- the state after `pop_back` and the `mem::replace`
    have hpop : pop_back c = some (c.tail, ⟨c.entries, c.head, p⟩) := by
      unfold pop_back
      rw [het]
      dsimp only
      rw [he_prev]
    have hpath₂ : isPathF (nexts (c.entries.set c.tail ⟨v, 0, 0⟩)) p c.head l.dropLast
        = true := by
      have hcongr : ∀ j ∈ (l.dropLast).dropLast,
          nexts (c.entries.set c.tail ⟨v, 0, 0⟩) j = nexts c.entries j := by
        intro j hj
        have hjm : j ∈ l.dropLast := List.dropLast_subset _ hj
        exact nexts_set_ne _ (fun he => htmem (he ▸ hjm))
      rw [isPathF_congr hcongr (isPathF_head hp1)]
      exact hp1
    have hprev₂ : prevOkF (prevs (c.entries.set c.tail ⟨v, 0, 0⟩)) l.dropLast
        = true := by
      have hcongr : ∀ j ∈ (l.dropLast).tail,
          prevs (c.entries.set c.tail ⟨v, 0, 0⟩) j = prevs c.entries j := by
        intro j hj
        have hjm : j ∈ l.dropLast := List.tail_subset _ hj
        exact prevs_set_ne _ (fun he => htmem (he ▸ hjm))
      rw [prevOkF_congr_tail hcongr]
      exact prevOkF_append_left hprevdec
    obtain ⟨c₃, hpf, hlen₃, hhead₃, htail₃, hval₃, hpath₃, hprev₃⟩ :=
      push_front_spec (c := ⟨c.entries.set c.tail ⟨v, 0, 0⟩, c.head, p⟩)
        hpath₂ hprev₂ hnd₁
        (by intro j hj; simpa using hboundinit j hj)
        (by simpa using htlt) htmem
        (by simp only [List.length_set]; omega)
    refine ⟨(c.entries[c.tail]).val, c₃, l.dropLast, ?_, hw, hdecomp,
      by rw [hlen₃]; simp, hhead₃, ?_, ?_, ?_, ?_, ?_, ?_, ?_⟩
    · unfold insert
      rw [if_pos hfull, hpop, Option.some_bind]
      dsimp only
      rw [het]
      dsimp only
      rw [hpf]
      rfl
    · rw [congrFun hval₃ c.tail]
      have hvs := valOf_set_self ⟨v, 0, 0⟩ htlt
      simpa using hvs
    · intro j hj
      rw [congrFun hval₃ j]
      have hvn := @valOf_set_ne T c.entries c.tail j ⟨v, 0, 0⟩ hj
      simpa using hvn
    · rw [htail₃, hhead₃]
      exact hpath₃
    · exact List.nodup_cons.mpr ⟨htmem, hnd₁⟩
    · have hll : l.length = l.dropLast.length + 1 := by
        conv_lhs => rw [hdecomp]
        simp
      rw [hlen₃]
      simp only [List.length_set, List.length_cons]
      omega
    · intro j hj
      rw [hlen₃]
      rcases List.mem_cons.mp hj with rfl | hj'
      · simpa using htlt
      · simpa using hboundinit j hj'
    · exact hprev₃

/-! ### The invariant holds in every reachable state -/

theorem inv_new : Inv (new : LRUCache T N) :=
  ⟨by simp [new], fun h => absurd h (by simp [new])⟩

theorem insert_nil_zero {c : LRUCache T N} (hlen : c.entries.length = 0)
    (hN : N = 0) (v : T) : insert c v = none := by
  unfold insert pop_back
  rw [if_pos (by omega), List.getElem?_eq_none (by omega)]
  rfl

theorem touch_empty {c : LRUCache T N} (hlen : c.entries.length = 0) (p : T → Bool) :
    touch c p = some (false, c) := by
  unfold touch touchAux
  rw [List.getElem?_eq_none (by omega)]

theorem inv_insert {c : LRUCache T N} {v : T} {r : Option T} {c' : LRUCache T N}
    (hInv : Inv c) (hN : N ≤ 65535)
    (h : insert c v = some (r, c')) : Inv c' := by
  obtain ⟨hle, hchain⟩ := hInv
  rcases Nat.eq_zero_or_pos c.entries.length with hzero | hpos
  · have hNpos : 0 < N := by
      by_contra hN0
      rw [insert_nil_zero hzero (by omega) v] at h
      exact Option.noConfusion h
    rw [insert_empty_spec hzero hNpos v] at h
    simp only [Option.some.injEq, Prod.mk.injEq] at h
    rw [← h.2]
    exact ⟨by simpa using hNpos, fun _ => ⟨[0], chainInv_singleton _⟩⟩
  · obtain ⟨l, hc⟩ := hchain hpos
    by_cases hfull : c.entries.length = N
    · obtain ⟨w, c₂, l', heq, -, -, hlen₂, -, -, -, hch₂⟩ :=
        insert_full_spec hc hfull v
      rw [heq] at h
      simp only [Option.some.injEq, Prod.mk.injEq] at h
      rw [← h.2]
      exact ⟨by omega, fun _ => ⟨c.tail :: l', hch₂⟩⟩
    · have hlt : c.entries.length < N := by omega
      obtain ⟨c₂, heq, hlen₂, -, -, -, -, hch₂⟩ :=
        insert_not_full_spec hc hlt (by omega) v
      rw [heq] at h
      simp only [Option.some.injEq, Prod.mk.injEq] at h
      rw [← h.2]
      refine ⟨by omega, fun _ => ⟨c.entries.length :: l, hch₂⟩⟩

theorem inv_touch {c : LRUCache T N} {p : T → Bool} {b : Bool} {c' : LRUCache T N}
    (hInv : Inv c) (hN : N ≤ 65535)
    (h : touch c p = some (b, c')) : Inv c' := by
  obtain ⟨hle, hchain⟩ := hInv
  rcases Nat.eq_zero_or_pos c.entries.length with hzero | hpos
  · rw [touch_empty hzero p] at h
    simp only [Option.some.injEq, Prod.mk.injEq] at h
    rw [← h.2]
    exact ⟨hle, fun hcon => by omega⟩
  · obtain ⟨l, hpath, hnd, hlen, hbound, hprev⟩ := hchain hpos
    have hspec := @touchAux_spec T N p c l c.head (c.entries.length + 1)
      hpath hbound hN hle (by omega)
    rw [touch] at h
    rw [hspec] at h
    rcases hf : l.find? (fun j => ((c.entries[j]?).map (fun e => p e.val)).getD false)
      with _ | i
    · rw [hf] at h
      simp only [Option.some.injEq, Prod.mk.injEq] at h
      rw [← h.2]
      exact ⟨hle, fun _ => ⟨l, hpath, hnd, hlen, hbound, hprev⟩⟩
    · rw [hf] at h
      simp only [Option.map_eq_some'] at h
      obtain ⟨ci, hti, hpair⟩ := h
      injection hpair with hb hc'
      subst hc'
      have hmem : i ∈ l := List.mem_of_find?_eq_some hf
      obtain ⟨l₁, l₂, hldec⟩ := List.append_of_mem hmem
      subst hldec
      obtain ⟨cs, htis, hlens, hheads, hvals, hpaths, hprevs⟩ :=
        touch_index_spec hpath hprev hnd hbound
      rw [htis] at hti
      obtain rfl : cs = ci := Option.some.inj hti
      have hperm : (l₁ ++ i :: l₂).Perm (i :: (l₁ ++ l₂)) := List.perm_middle
      refine ⟨by omega, fun _ => ⟨i :: (l₁ ++ l₂), by rw [hheads]; exact hpaths,
        ?_, ?_, ?_, hprevs⟩⟩
      · exact hperm.nodup hnd
      · rw [← hperm.length_eq, hlen, hlens]
      · intro j hj
        rw [hlens]
        exact hbound j (hperm.symm.subset hj)

theorem inv_find {c : LRUCache T N} {p : T → Bool} {r : Option T} {c' : LRUCache T N}
    (hInv : Inv c) (hN : N ≤ 65535)
    (h : find c p = some (r, c')) : Inv c' := by
  unfold find at h
  simp only [Option.map_eq_some'] at h
  obtain ⟨⟨b, ct⟩, ht, hpair⟩ := h
  injection hpair with hr hc'
  subst hc'
  exact inv_touch hInv hN ht

theorem inv_clear (c : LRUCache T N) : Inv (clear c) :=
  ⟨by simp [clear], fun h => absurd h (by simp [clear])⟩

theorem reachable_inv {c : LRUCache T N} (hN : N ≤ 65535) (h : Reachable c) :
    Inv c := by
  induction h with
  | init => exact inv_new
  | next o hr hstep ih =>
    rcases o with v | p | p | _
    · simp only [stepOp, Option.map_eq_some'] at hstep
      obtain ⟨⟨r, c₂⟩, hins, hc'⟩ := hstep
      rw [← hc']
      exact inv_insert ih hN hins
    · simp only [stepOp, Option.map_eq_some'] at hstep
      obtain ⟨⟨b, c₂⟩, ht, hc'⟩ := hstep
      rw [← hc']
      exact inv_touch ih hN ht
    · simp only [stepOp, Option.map_eq_some'] at hstep
      obtain ⟨⟨r, c₂⟩, ht, hc'⟩ := hstep
      rw [← hc']
      exact inv_find ih hN ht
    · simp only [stepOp, Option.some.injEq] at hstep
      rw [← hstep]
      exact inv_clear _

/-! ### Value-level characterisations -/

theorem iterVals_empty {c : LRUCache T N} (hlen : c.entries.length = 0) :
    iterVals c = [] := by
  unfold iterVals iterFrom
  rw [hlen]
  unfold iterFrom
  rw [List.getElem?_eq_none (by omega)]

theorem iterVals_chain {c : LRUCache T N} {l : List Nat} (hc : ChainInv c l)
    (hN : N ≤ 65535) (hle : c.entries.length ≤ N) :
    iterVals c = l.filterMap (valOf c.entries) := by
  obtain ⟨hpath, hnd, hlen, hbound, hprev⟩ := hc
  exact iterFrom_spec hpath hbound hN hle (by omega)

theorem chain_all_isSome {c : LRUCache T N} {l : List Nat} (hc : ChainInv c l) :
    ∀ j ∈ l, (valOf c.entries j).isSome := by
  intro j hj
  rw [valOf, List.getElem?_eq_getElem (hc.2.2.2.1 j hj)]
  rfl

theorem filterMap_length_all_some {f : Nat → Option T} {l : List Nat}
    (h : ∀ j ∈ l, (f j).isSome) : (l.filterMap f).length = l.length := by
  induction l with
  | nil => rfl
  | cons j l ih =>
    obtain ⟨w, hw⟩ := Option.isSome_iff_exists.mp (h j (by simp))
    rw [List.filterMap_cons, hw]
    simp only [List.length_cons]
    rw [ih (fun x hx => h x (by simp [hx]))]

theorem filterMap_getLast_all_some {f : Nat → Option T} {l : List Nat}
    (h : ∀ j ∈ l, (f j).isSome) (hl : l ≠ []) :
    (l.filterMap f).getLast? = f (l.getLast hl) := by
  induction l with
  | nil => exact absurd rfl hl
  | cons j l ih =>
    obtain ⟨w, hw⟩ := Option.isSome_iff_exists.mp (h j (by simp))
    rw [List.filterMap_cons, hw]
    match l with
    | [] => simp [hw]
    | k :: l' =>
      dsimp only
      rw [List.getLast_cons (by simp)]
      have hh : ∀ x ∈ k :: l', (f x).isSome := fun x (hx : x ∈ k :: l') =>
        h x (by simp [hx])
      have hrec := ih hh (by simp)
      rw [← hrec]
      have hne : (k :: l').filterMap f ≠ [] := by
        have hfl := filterMap_length_all_some hh
        intro hcon
        rw [hcon] at hfl
        simp at hfl
      rw [show w :: List.filterMap f (k :: l') = [w] ++ List.filterMap f (k :: l')
        from rfl]
      exact List.getLast?_append_of_ne_nil _ hne

theorem filterMap_decomp {f : Nat → Option T} {l : List Nat} {q : T → Bool}
    {pre post : List T} {v : T}
    (hall : ∀ j ∈ l, (f j).isSome)
    (hdec : l.filterMap f = pre ++ v :: post)
    (hpre : ∀ x ∈ pre, q x = false) (hv : q v = true) :
    ∃ l₁ i l₂, l = l₁ ++ i :: l₂ ∧ l₁.filterMap f = pre ∧ f i = some v ∧
      l₂.filterMap f = post ∧
      l.find? (fun j => ((f j).map q).getD false) = some i := by
  induction l generalizing pre with
  | nil =>
    rw [List.filterMap_nil] at hdec
    exact absurd hdec.symm (by simp)
  | cons j l ih =>
    obtain ⟨w, hw⟩ := Option.isSome_iff_exists.mp (hall j (by simp))
    rw [List.filterMap_cons, hw] at hdec
    rcases pre with _ | ⟨x, pre'⟩
    · simp only [List.nil_append, List.cons.injEq] at hdec
      obtain ⟨rfl, hpost⟩ := hdec
      refine ⟨[], j, l, by simp, by simp, hw, hpost, ?_⟩
      rw [List.find?_cons_of_pos]
      simp [hw, hv]
    · simp only [List.cons_append, List.cons.injEq] at hdec
      obtain ⟨rfl, hrest⟩ := hdec
      have hqx : q w = false := hpre w (by simp)
      obtain ⟨l₁, i, l₂, hl, hfm1, hfi, hfm2, hfind⟩ :=
        ih (fun x hx => hall x (by simp [hx])) hrest
          (fun x hx => hpre x (by simp [hx]))
      refine ⟨j :: l₁, i, l₂, by rw [hl]; rfl, ?_, hfi, hfm2, ?_⟩
      · rw [List.filterMap_cons, hw, hfm1]
      · rw [List.find?_cons_of_neg]
        · exact hfind
        · simp [hw, hqx]

theorem find?_none_no_match {f : Nat → Option T} {l : List Nat} {q : T → Bool}
    (hall : ∀ j ∈ l, (f j).isSome)
    (h : ∀ x ∈ l.filterMap f, q x = false) :
    l.find? (fun j => ((f j).map q).getD false) = none := by
  induction l with
  | nil => rfl
  | cons j l ih =>
    obtain ⟨w, hw⟩ := Option.isSome_iff_exists.mp (hall j (by simp))
    have hqw : q w = false := by
      refine h w ?_
      rw [List.filterMap_cons, hw]
      simp
    rw [List.find?_cons_of_neg]
    · refine ih (fun x hx => hall x (by simp [hx])) ?_
      intro x hx
      refine h x ?_
      rw [List.filterMap_cons, hw]
      simp [hx]
    · simp [hw, hqw]

theorem touch_nomatch_spec {c : LRUCache T N} {p : T → Bool} {l : List Nat}
    (hc : ChainInv c l) (hN : N ≤ 65535) (hle : c.entries.length ≤ N)
    (h : ∀ x ∈ iterVals c, p x = false) :
    touch c p = some (false, c) := by
  obtain ⟨hpath, hnd, hlen, hbound, hprev⟩ := hc
  have hspec := @touchAux_spec T N p c l c.head (c.entries.length + 1)
    hpath hbound hN hle (by omega)
  have hqeq : (fun j => ((c.entries[j]?).map (fun e => p e.val)).getD false)
      = (fun j => ((valOf c.entries j).map p).getD false) := by
    funext j
    unfold valOf
    cases c.entries[j]? <;> rfl
  rw [hqeq] at hspec
  rw [touch, hspec]
  have hiter := iterVals_chain ⟨hpath, hnd, hlen, hbound, hprev⟩ hN hle
  have hall := chain_all_isSome ⟨hpath, hnd, hlen, hbound, hprev⟩
  rw [find?_none_no_match hall (fun x hx => h x (by rw [hiter]; exact hx))]

theorem touch_match_spec {c : LRUCache T N} {p : T → Bool} {l : List Nat}
    (hc : ChainInv c l) (hN : N ≤ 65535) (hle : c.entries.length ≤ N)
    {pre post : List T} {v : T}
    (hdec : iterVals c = pre ++ v :: post)
    (hpre : ∀ x ∈ pre, p x = false) (hv : p v = true) :
    ∃ c', touch c p = some (true, c') ∧ Inv c' ∧
      c'.entries.length = c.entries.length ∧
      iterVals c' = v :: (pre ++ post) ∧
      front_mut c' = some v := by
  obtain ⟨hpath, hnd, hlen, hbound, hprev⟩ := hc
  have hall := chain_all_isSome ⟨hpath, hnd, hlen, hbound, hprev⟩
  have hiter := iterVals_chain ⟨hpath, hnd, hlen, hbound, hprev⟩ hN hle
  rw [hiter] at hdec
  obtain ⟨l₁, i, l₂, hl, hfm1, hfi, hfm2, hfind⟩ :=
    filterMap_decomp hall hdec hpre hv
  have hspec := @touchAux_spec T N p c l c.head (c.entries.length + 1)
    hpath hbound hN hle (by omega)
  have hqeq : (fun j => ((c.entries[j]?).map (fun e => p e.val)).getD false)
      = (fun j => ((valOf c.entries j).map p).getD false) := by
    funext j
    unfold valOf
    cases c.entries[j]? <;> rfl
  rw [hqeq] at hspec
  subst hl
  obtain ⟨c', hti, hlen', hhead', hval', hpath', hprev'⟩ :=
    touch_index_spec hpath hprev hnd hbound
  have hperm : (l₁ ++ i :: l₂).Perm (i :: (l₁ ++ l₂)) := List.perm_middle
  have hchain' : ChainInv c' (i :: (l₁ ++ l₂)) := by
    refine ⟨by rw [hhead']; exact hpath', hperm.nodup hnd, ?_, ?_, hprev'⟩
    · rw [← hperm.length_eq, hlen, hlen']
    · intro j hj
      rw [hlen']
      exact hbound j (hperm.symm.subset hj)
  refine ⟨c', ?_, ⟨by omega, fun _ => ⟨_, hchain'⟩⟩, hlen', ?_, ?_⟩
  · rw [touch, hspec, hfind]
    dsimp only
    rw [hti]
    rfl
  · have hiter' := iterVals_chain hchain' hN (by omega)
    rw [hiter', List.filterMap_cons]
    have hvi : valOf c'.entries i = some v := by
      rw [congrFun hval' i]
      exact hfi
    rw [hvi, List.filterMap_append]
    have hcongr : ∀ g : List Nat,
        g.filterMap (valOf c'.entries) = g.filterMap (valOf c.entries) := by
      intro g
      induction g with
      | nil => rfl
      | cons a g ihg =>
        rw [List.filterMap_cons, List.filterMap_cons, congrFun hval' a, ihg]
    rw [hcongr l₁, hcongr l₂, hfm1, hfm2]
  · rw [front_mut, hhead']
    have hvi : valOf c'.entries i = some v := by
      rw [congrFun hval' i]
      exact hfi
    rw [valOf] at hvi
    exact hvi

theorem iterVals_singleton (e : Entry T) (hN1 : 1 ≤ N) (hN : N ≤ 65535) :
    iterVals (⟨[e], 0, 0⟩ : LRUCache T N) = [e.val] := by
  rw [iterVals_chain (chainInv_singleton e) hN (by simpa using hN1)]
  simp [valOf]

/-- Combined description of a non-full `insert`: it returns nothing, the
new value becomes the head slot, and the iteration order gains it in
front. -/
theorem insert_prepend {c : LRUCache T N} (hInv : Inv c)
    (hlt : c.entries.length < N) (hN : N ≤ 65535) (v : T) :
    ∃ c', insert c v = some (none, c') ∧ Inv c' ∧
      c'.entries.length = c.entries.length + 1 ∧
      c'.head = c.entries.length ∧
      (c.entries.length = 0 → c'.tail = c'.head) ∧
      iterVals c' = v :: iterVals c := by
  obtain ⟨hle, hchain⟩ := hInv
  rcases Nat.eq_zero_or_pos c.entries.length with hzero | hpos
  · refine ⟨⟨[⟨v, 0, 0⟩], 0, 0⟩, ?_, ?_, by simp [hzero], by simp [hzero],
      fun _ => rfl, ?_⟩
    · exact insert_empty_spec hzero (by omega) v
    · exact ⟨by simpa using (by omega : 1 ≤ N), fun _ => ⟨[0], chainInv_singleton _⟩⟩
    · rw [iterVals_singleton _ (by omega) hN, iterVals_empty hzero]
  · obtain ⟨l, hc⟩ := hchain hpos
    obtain ⟨c', heq, hlen', hhead', htail', hvnew, hvold, hch'⟩ :=
      insert_not_full_spec hc hlt (by omega) v
    refine ⟨c', heq, ⟨by omega, fun _ => ⟨_, hch'⟩⟩, hlen', hhead',
      fun h0 => absurd h0 (by omega), ?_⟩
    rw [iterVals_chain hch' hN (by omega), iterVals_chain hc hN hle,
      List.filterMap_cons, hvnew]
    have hcongr : l.filterMap (valOf c'.entries) = l.filterMap (valOf c.entries) :=
      List.filterMap_congr (fun j hj => hvold j (hc.2.2.2.1 j hj))
    rw [hcongr]

theorem runInserts_spec {c : LRUCache T N} (hN : N ≤ 65535) (hInv : Inv c)
    (vs : List T) (hfit : c.entries.length + vs.length ≤ N) :
    ∃ c', runInserts c vs = some (vs.map (fun _ => none), c') ∧ Inv c' ∧
      c'.entries.length = c.entries.length + vs.length ∧
      iterVals c' = vs.reverse ++ iterVals c := by
  induction vs generalizing c with
  | nil => exact ⟨c, rfl, hInv, by simp, by simp⟩
  | cons v vs ih =>
    have hlt : c.entries.length < N := by
      simp only [List.length_cons] at hfit
      omega
    obtain ⟨c₁, heq, hInv₁, hlen₁, -, -, hiter₁⟩ := insert_prepend hInv hlt hN v
    obtain ⟨c', hrun, hInv', hlen', hiter'⟩ := ih hInv₁
      (by simp only [List.length_cons] at hfit; omega)
    refine ⟨c', ?_, hInv', ?_, ?_⟩
    · rw [runInserts, heq, Option.some_bind, hrun]
      rfl
    · rw [hlen', hlen₁]
      simp only [List.length_cons]
      omega
    · rw [hiter', hiter₁]
      simp

theorem runInserts_len {vs : List T} {c : LRUCache T N}
    {rs : List (Option T)} {c' : LRUCache T N}
    (hle : c.entries.length ≤ N) (h : runInserts c vs = some (rs, c')) :
    c'.entries.length = min (c.entries.length + vs.length) N := by
  induction vs generalizing c rs with
  | nil =>
    simp only [runInserts, Option.some.injEq, Prod.mk.injEq] at h
    rw [← h.2]
    simp
    omega
  | cons v vs ih =>
    rw [runInserts] at h
    simp only [Option.bind_eq_bind, Option.bind_eq_some] at h
    obtain ⟨⟨r, c₁⟩, hins, hrest⟩ := h
    simp only [Option.map_eq_some'] at hrest
    obtain ⟨⟨rs', c₂⟩, hrun, hpair⟩ := hrest
    injection hpair with hrs hc₂
    subst hc₂
    have hlen₁ := insert_length hins
    by_cases hfull : c.entries.length = N
    · rw [if_pos hfull] at hlen₁
      have := ih (c := c₁) (by omega) hrun
      rw [this]
      simp only [List.length_cons]
      omega
    · rw [if_neg hfull] at hlen₁
      have := ih (c := c₁) (by omega) hrun
      rw [this]
      simp only [List.length_cons]
      omega

theorem head_eq_tail_iff {c : LRUCache T N} {l : List Nat} (hc : ChainInv c l) :
    (c.head = c.tail ↔ c.entries.length = 1) := by
  obtain ⟨hpath, hnd, hlen, hbound, hprev⟩ := hc
  constructor
  · intro hht
    by_contra hlen1
    have h2 : 2 ≤ l.length := by
      rcases l with _ | ⟨a, l'⟩
      · exact absurd (isPathF_ne_nil hpath) (by simp)
      · rcases l' with _ | ⟨b, l''⟩
        · exact absurd (by simpa using hlen.symm) hlen1
        · simp
    rcases l with _ | ⟨a, l'⟩
    · simp at h2
    · rcases l' with _ | ⟨b, l''⟩
      · simp at h2
      · have ha : a = c.head := by simpa using isPathF_head hpath
        have hgl : (a :: b :: l'').getLast? = some c.tail := isPathF_getLast hpath
        rw [List.getLast?_cons_cons] at hgl
        have htmem : c.tail ∈ b :: l'' := List.mem_of_mem_getLast? hgl
        have : a ∈ b :: l'' := by rw [ha, hht]; exact htmem
        exact (List.nodup_cons.mp hnd).1 this
  · intro hlen1
    have hl1 : l.length = 1 := by omega
    rcases l with _ | ⟨a, l'⟩
    · simp at hl1
    · rcases l' with _ | ⟨b, l''⟩
      · rw [isPathF_single] at hpath
        exact hpath.2
      · simp at hl1

theorem find_length {c : LRUCache T N} {p : T → Bool} {r : Option T}
    {c' : LRUCache T N} (h : find c p = some (r, c')) :
    c'.entries.length = c.entries.length := by
  unfold find at h
  simp only [Option.map_eq_some'] at h
  obtain ⟨⟨b, ct⟩, ht, hpair⟩ := h
  injection hpair with hr hc'
  subst hc'
  exact touch_length ht

theorem reachable_len_le {c : LRUCache T N} (h : Reachable c) :
    c.entries.length ≤ N := by
  induction h with
  | init => simp [new]
  | @next cp cc o hr hstep ih =>
    rcases o with v | p | p | _
    · simp only [stepOp, Option.map_eq_some'] at hstep
      obtain ⟨⟨r, c₂⟩, hins, hc'⟩ := hstep
      have hil := insert_length hins
      rw [← hc']
      dsimp only
      by_cases hf : cp.entries.length = N
      · rw [if_pos hf] at hil
        omega
      · rw [if_neg hf] at hil
        omega
    · simp only [stepOp, Option.map_eq_some'] at hstep
      obtain ⟨⟨b, c₂⟩, ht, hc'⟩ := hstep
      rw [← hc']
      rw [touch_length ht]
      exact ih
    · simp only [stepOp, Option.map_eq_some'] at hstep
      obtain ⟨⟨r, c₂⟩, ht, hc'⟩ := hstep
      rw [← hc']
      rw [find_length ht]
      exact ih
    · simp only [stepOp, Option.some.injEq] at hstep
      rw [← hstep]
      simp [clear]

theorem touch_some {c : LRUCache T N} (hInv : Inv c) (hN : N ≤ 65535)
    (p : T → Bool) : ∃ b c', touch c p = some (b, c') := by
  obtain ⟨hle, hchain⟩ := hInv
  rcases Nat.eq_zero_or_pos c.entries.length with hzero | hpos
  · exact ⟨false, c, touch_empty hzero p⟩
  · obtain ⟨l, hc⟩ := hchain hpos
    obtain ⟨hpath, hnd, hlen, hbound, hprev⟩ := hc
    have hspec := @touchAux_spec T N p c l c.head (c.entries.length + 1)
      hpath hbound hN hle (by omega)
    rw [touch, hspec]
    rcases hf : l.find? (fun j => ((c.entries[j]?).map (fun e => p e.val)).getD false)
      with _ | i
    · exact ⟨false, c, by rw [hf]⟩
    · have hmem : i ∈ l := List.mem_of_find?_eq_some hf
      obtain ⟨l₁, l₂, hldec⟩ := List.append_of_mem hmem
      subst hldec
      obtain ⟨cs, htis, -, -, -, -, -⟩ := touch_index_spec hpath hprev hnd hbound
      refine ⟨true, cs, ?_⟩
      rw [hf]
      dsimp only
      rw [htis]
      rfl

theorem insert_some {c : LRUCache T N} (hInv : Inv c) (hN1 : 1 ≤ N)
    (hN : N ≤ 65535) (v : T) : ∃ r c', insert c v = some (r, c') := by
  obtain ⟨hle, hchain⟩ := hInv
  rcases Nat.eq_zero_or_pos c.entries.length with hzero | hpos
  · exact ⟨none, _, insert_empty_spec hzero (by omega) v⟩
  · obtain ⟨l, hc⟩ := hchain hpos
    by_cases hfull : c.entries.length = N
    · obtain ⟨w, c₂, l', heq, -⟩ := insert_full_spec hc hfull v
      exact ⟨some w, c₂, heq⟩
    · obtain ⟨c₂, heq, -⟩ := insert_not_full_spec hc (by omega) (by omega) v
      exact ⟨none, c₂, heq⟩

/-! ### Claim theorems -/

/-- C1: on every reachable state of a capacity-`N ≥ 1` cache whose storage
is full (`len = N`), `insert v` returns the value held by the current tail
slot — the last element of the MRU→LRU iteration order, i.e. the element
that has gone longest without being inserted, found or touched — writes
`v` into that same slot, relinks that slot as the new head, and leaves
`len` equal to `N`. -/
theorem c1_insert_full_evicts_lru (c : LRUCache T N) (v : T)
    (hN1 : 1 ≤ N) (hN : N ≤ 65535) (hr : Reachable c) (hfull : len c = N) :
    ∃ w c', insert c v = some (some w, c') ∧
      valOf c.entries c.tail = some w ∧
      (iterVals c).getLast? = some w ∧
      c'.head = c.tail ∧
      valOf c'.entries c.tail = some v ∧
      len c' = N := by
  unfold len at hfull
  have hInv := reachable_inv hN hr
  obtain ⟨hle, hchain⟩ := hInv
  have hpos : 0 < c.entries.length := by omega
  obtain ⟨l, hc⟩ := hchain hpos
  obtain ⟨w, c', l', heq, hwv, hldec, hlen', hhead', hvnew, hvold, hch'⟩ :=
    insert_full_spec hc hfull v
  refine ⟨w, c', heq, hwv, ?_, hhead', hvnew, by unfold len; omega⟩
  have hiter := iterVals_chain hc hN hle
  have hall := chain_all_isSome hc
  have hlne : l ≠ [] := isPathF_ne_nil hc.1
  rw [hiter, filterMap_getLast_all_some hall hlne]
  have hgl : l.getLast hlne = c.tail := by
    have h2 := isPathF_getLast hc.1
    rw [List.getLast?_eq_getLast l hlne] at h2
    exact Option.some.inj h2
  rw [hgl]
  exact hwv

theorem c1_witness :
    (1 ≤ 2 ∧ 2 ≤ 65535 ∧ Reachable cacheW ∧ len cacheW = 2) ∧
    ∃ w c', insert cacheW 30 = some (some w, c') ∧
      valOf cacheW.entries cacheW.tail = some w ∧
      (iterVals cacheW).getLast? = some w ∧
      c'.head = cacheW.tail ∧
      valOf c'.entries cacheW.tail = some 30 ∧
      len c' = 2 := by
  have h1 : stepOp (new : LRUCache Nat 2) (Op.ins 10) = some cacheW1 := by decide
  have h2 : stepOp cacheW1 (Op.ins 20) = some cacheW := by decide
  have hreach : Reachable cacheW :=
    Reachable.next _ (Reachable.next _ Reachable.init h1) h2
  exact ⟨⟨by decide, by decide, hreach, by decide⟩,
    c1_insert_full_evicts_lru cacheW 30 (by decide) (by decide) hreach (by decide)⟩

/-- C2 (code evidence): `new` performs no capacity check whatsoever —
construction succeeds and yields an empty cache for every capacity `M`,
including `M = 65536`, which the `u16` index type plus one sentinel value
cannot address; the claimed construction-time assertion does not exist in
the code, which instead truncates indices silently via `as u16`. -/
theorem c2_new_never_fails :
    (new : LRUCache Nat 65536).entries.length = 0 ∧
    ∀ (S : Type) (M : Nat), (new : LRUCache S M).entries.length = 0 ∧
      (new : LRUCache S M).head = 0 ∧ (new : LRUCache S M).tail = 0 :=
  ⟨rfl, fun _ _ => ⟨rfl, rfl, rfl⟩⟩

/-- C3 (counterexample): the capacity `N = 0` is accepted by construction,
yet `insert` on the resulting cache immediately indexes `entries[0]` on
empty storage — an out-of-bounds panic, refuting totality for `N = 0`. -/
theorem c3_counterexample :
    (new : LRUCache Nat 0).entries.length = 0 ∧
    insert (new : LRUCache Nat 0) 42 = none :=
  ⟨rfl, by decide⟩

/-- C3 (amended): for capacities `1 ≤ N ≤ 65535`, every public operation
is total on every reachable state: `insert`, `touch` and `find` never
panic and never diverge (`len`, `is_empty`, `clear`, `front_mut` and
iteration are total functions of the model). -/
theorem c3_amended_ops_total (c : LRUCache T N) (hN1 : 1 ≤ N)
    (hN : N ≤ 65535) (hr : Reachable c) (v : T) (p : T → Bool) :
    (insert c v).isSome ∧ (touch c p).isSome ∧ (find c p).isSome := by
  have hInv := reachable_inv hN hr
  obtain ⟨r, c₁, h1⟩ := insert_some hInv hN1 hN v
  obtain ⟨b, c₂, h2⟩ := touch_some hInv hN p
  refine ⟨by rw [h1]; rfl, by rw [h2]; rfl, ?_⟩
  unfold find
  rw [h2]
  rfl

theorem c3_witness :
    (insert cacheW 30).isSome ∧ (touch cacheW (fun x => x == 10)).isSome ∧
    (find cacheW (fun x => x == 10)).isSome := by
  have h1 : stepOp (new : LRUCache Nat 2) (Op.ins 10) = some cacheW1 := by decide
  have h2 : stepOp cacheW1 (Op.ins 20) = some cacheW := by decide
  exact c3_amended_ops_total cacheW (by decide) (by decide)
    (Reachable.next _ (Reachable.next _ Reachable.init h1) h2) 30
    (fun x => x == 10)

/-- C4: on every reachable state, `touch`/`find` scan the occupied slots
from head to tail. If no element satisfies the predicate, `touch` returns
`false`, `find` returns nothing, and the state is left unmodified. If some
element does, the first such element (in MRU→LRU order) is detached and
re-inserted at the head, `touch` returns `true`, and `find` additionally
returns that value; afterwards iteration yields it first followed by the
rest in their previous relative order. -/
theorem c4_find_touch_scan (c : LRUCache T N) (p : T → Bool)
    (hN : N ≤ 65535) (hr : Reachable c) :
    ((∀ x ∈ iterVals c, p x = false) →
      touch c p = some (false, c) ∧ find c p = some (none, c)) ∧
    (∀ pre v post, iterVals c = pre ++ v :: post →
      (∀ x ∈ pre, p x = false) → p v = true →
      ∃ c', touch c p = some (true, c') ∧ find c p = some (some v, c') ∧
        iterVals c' = v :: (pre ++ post)) := by
  have hInv := reachable_inv hN hr
  obtain ⟨hle, hchain⟩ := hInv
  constructor
  · intro hno
    rcases Nat.eq_zero_or_pos c.entries.length with hzero | hpos
    · have ht := touch_empty hzero p
      refine ⟨ht, ?_⟩
      unfold find
      rw [ht]
      rfl
    · obtain ⟨l, hc⟩ := hchain hpos
      have ht := touch_nomatch_spec hc hN hle hno
      refine ⟨ht, ?_⟩
      unfold find
      rw [ht]
      rfl
  · intro pre v post hdec hpre hv
    rcases Nat.eq_zero_or_pos c.entries.length with hzero | hpos
    · rw [iterVals_empty hzero] at hdec
      exact absurd hdec.symm (by simp)
    · obtain ⟨l, hc⟩ := hchain hpos
      obtain ⟨c', ht, hInv', hlen', hiter', hfront'⟩ :=
        touch_match_spec hc hN hle hdec hpre hv
      refine ⟨c', ht, ?_, hiter'⟩
      unfold find
      rw [ht]
      simp [hfront']

theorem c4_witness :
    ∃ c', touch cacheW (fun x => x == 10) = some (true, c') ∧
      find cacheW (fun x => x == 10) = some (some 10, c') ∧
      iterVals c' = 10 :: ([20] ++ []) := by
  have h1 : stepOp (new : LRUCache Nat 2) (Op.ins 10) = some cacheW1 := by decide
  have h2 : stepOp cacheW1 (Op.ins 20) = some cacheW := by decide
  exact (c4_find_touch_scan cacheW (fun x => x == 10) (by decide)
    (Reachable.next _ (Reachable.next _ Reachable.init h1) h2)).2
    [20] 10 [] (by decide) (by decide) (by decide)

/-- C5: every public operation preserves the chain invariant — every state
reachable from `new` by public operations satisfies `Inv`: occupancy never
exceeds `N`, and a non-empty cache carries a single linear chain from
`head` to `tail` of length exactly `len`, covering each occupied slot
exactly once, whose `prev` links reverse it; moreover `head = tail` iff
the cache holds exactly one element. -/
theorem c5_chain_invariant (c : LRUCache T N) (hN : N ≤ 65535)
    (hr : Reachable c) :
    Inv c ∧ (0 < len c → (c.head = c.tail ↔ len c = 1)) := by
  have hInv := reachable_inv hN hr
  refine ⟨hInv, fun hpos => ?_⟩
  obtain ⟨hle, hchain⟩ := hInv
  unfold len at hpos ⊢
  obtain ⟨l, hc⟩ := hchain hpos
  exact head_eq_tail_iff hc

theorem c5_witness :
    Inv cacheW ∧ (0 < len cacheW → (cacheW.head = cacheW.tail ↔ len cacheW = 1)) := by
  have h1 : stepOp (new : LRUCache Nat 2) (Op.ins 10) = some cacheW1 := by decide
  have h2 : stepOp cacheW1 (Op.ins 20) = some cacheW := by decide
  exact c5_chain_invariant cacheW (by decide)
    (Reachable.next _ (Reachable.next _ Reachable.init h1) h2)

/-- C6: on every reachable state (all of which satisfy the chain
invariant) iteration yields exactly `len` values, the empty sequence when
`len = 0`; and inserting `N` values into a fresh cache of capacity `N`
then iterating yields them in reverse insertion order — when they are
distinct, each exactly once. -/
theorem c6_iteration_order (hN : N ≤ 65535) :
    (∀ c : LRUCache T N, Reachable c → (iterVals c).length = len c) ∧
    (∀ c : LRUCache T N, len c = 0 → iterVals c = []) ∧
    (∀ (vs : List T) (rs : List (Option T)) (c' : LRUCache T N),
      vs.length = N → runInserts new vs = some (rs, c') →
      iterVals c' = vs.reverse ∧ (vs.Nodup → (iterVals c').Nodup)) := by
  refine ⟨?_, ?_, ?_⟩
  · intro c hr
    have hInv := reachable_inv hN hr
    obtain ⟨hle, hchain⟩ := hInv
    rcases Nat.eq_zero_or_pos c.entries.length with hzero | hpos
    · rw [iterVals_empty hzero]
      unfold len
      simp [hzero]
    · obtain ⟨l, hc⟩ := hchain hpos
      rw [iterVals_chain hc hN hle,
        filterMap_length_all_some (chain_all_isSome hc)]
      unfold len
      exact hc.2.2.1
  · intro c h0
    exact iterVals_empty h0
  · intro vs rs c' hlenvs hrun
    obtain ⟨c₂, hrun₂, hInv₂, hlen₂, hiter₂⟩ :=
      runInserts_spec hN inv_new vs (by simp [new]; omega)
    rw [hrun₂] at hrun
    simp only [Option.some.injEq, Prod.mk.injEq] at hrun
    rw [← hrun.2]
    have hiter : iterVals c₂ = vs.reverse := by
      rw [hiter₂, iterVals_empty (by simp [new])]
      simp
    refine ⟨hiter, fun hnd => ?_⟩
    rw [hiter]
    exact List.nodup_reverse.mpr hnd

theorem c6_witness :
    iterVals cacheV = ([1, 2, 3] : List Nat).reverse ∧
    (([1, 2, 3] : List Nat).Nodup → (iterVals cacheV).Nodup) :=
  (c6_iteration_order (by decide)).2.2 [1, 2, 3] [none, none, none] cacheV
    (by decide) (by decide)

/-- C7: `clear` resets occupancy to zero, and a cleared cache is
observationally identical to a freshly constructed one of the same
capacity under every sequence of inserts: the runs panic alike, and on
success produce the same insert return values, the same final `len` and
the same iteration sequence. -/
theorem c7_clear_equiv_fresh (c : LRUCache T N) (vs : List T) :
    len (clear c) = 0 ∧
    (runInserts (clear c) vs).map (fun r => (r.1, len r.2, iterVals r.2)) =
      (runInserts (new : LRUCache T N) vs).map
        (fun r => (r.1, len r.2, iterVals r.2)) := by
  refine ⟨rfl, ?_⟩
  rcases vs with _ | ⟨v, vs⟩
  · simp only [runInserts, Option.map_some']
    have h1 : iterVals (clear c) = [] := iterVals_empty rfl
    have h2 : iterVals (new : LRUCache T N) = [] := iterVals_empty rfl
    rw [h1, h2]
    rfl
  · have hkey : insert (clear c) v = insert (new : LRUCache T N) v := by
      rcases Nat.eq_zero_or_pos N with hN0 | hNpos
      · rw [insert_nil_zero (c := clear c) rfl hN0 v,
          insert_nil_zero (c := new) rfl hN0 v]
      · rw [insert_empty_spec (c := clear c) rfl hNpos v,
          insert_empty_spec (c := new) rfl hNpos v]
    simp only [runInserts]
    rw [hkey]

/-- C8: on every reachable state with free capacity (`len < N`),
`insert v` appends a new slot holding `v`, links it as the new head (also
as tail when it is the only element), returns nothing, increases `len` by
one, and iteration immediately afterwards yields `v` first. -/
theorem c8_insert_not_full (c : LRUCache T N) (v : T) (hN : N ≤ 65535)
    (hr : Reachable c) (hlt : len c < N) :
    ∃ c', insert c v = some (none, c') ∧ len c' = len c + 1 ∧
      c'.head = len c ∧ (len c = 0 → c'.tail = c'.head) ∧
      iterVals c' = v :: iterVals c := by
  have hInv := reachable_inv hN hr
  unfold len at hlt
  obtain ⟨c', heq, hInv', hlen', hhead', htail', hiter'⟩ :=
    insert_prepend hInv hlt hN v
  exact ⟨c', heq, hlen', hhead', htail', hiter'⟩

theorem c8_witness :
    ∃ c', insert cacheW1 20 = some (none, c') ∧ len c' = len cacheW1 + 1 ∧
      c'.head = len cacheW1 ∧ (len cacheW1 = 0 → c'.tail = c'.head) ∧
      iterVals c' = 20 :: iterVals cacheW1 := by
  have h1 : stepOp (new : LRUCache Nat 2) (Op.ins 10) = some cacheW1 := by decide
  exact c8_insert_not_full cacheW1 20 (by decide)
    (Reachable.next _ Reachable.init h1) (by decide)

/-- C9: for every capacity `N ≥ 1`, occupancy never exceeds `N` in any
reachable state, equals `min(#inserts, N)` after an insert-only history
from a fresh cache, and once the cache is full no operation other than
`clear` changes the slot count. -/
theorem c9_len_bounds (hN1 : 1 ≤ N) :
    (∀ c : LRUCache T N, Reachable c → len c ≤ N) ∧
    (∀ (vs : List T) (rs : List (Option T)) (c' : LRUCache T N),
      runInserts new vs = some (rs, c') → len c' = min vs.length N) ∧
    (∀ (c c' : LRUCache T N) (o : Op T), o ≠ Op.clr → stepOp c o = some c' →
      len c = N → len c' = N) := by
  refine ⟨fun c hr => reachable_len_le hr, ?_, ?_⟩
  · intro vs rs c' hrun
    have hmin := runInserts_len (c := new) (by simp [new]) hrun
    unfold len
    rw [hmin]
    simp [new]
  · intro c c' o hne hstep hfull
    unfold len at hfull ⊢
    rcases o with v | p | p | _
    · simp only [stepOp, Option.map_eq_some'] at hstep
      obtain ⟨⟨r, c₂⟩, hins, hc'⟩ := hstep
      have hil := insert_length hins
      rw [if_pos hfull] at hil
      rw [← hc']
      dsimp only
      omega
    · simp only [stepOp, Option.map_eq_some'] at hstep
      obtain ⟨⟨b, c₂⟩, ht, hc'⟩ := hstep
      rw [← hc']
      dsimp only
      rw [touch_length ht]
      omega
    · simp only [stepOp, Option.map_eq_some'] at hstep
      obtain ⟨⟨r, c₂⟩, ht, hc'⟩ := hstep
      rw [← hc']
      dsimp only
      rw [find_length ht]
      omega
    · exact absurd rfl hne

theorem c9_witness :
    len cacheW ≤ 2 ∧ len cacheV = min ([1, 2, 3] : List Nat).length 3 := by
  have h1 : stepOp (new : LRUCache Nat 2) (Op.ins 10) = some cacheW1 := by decide
  have h2 : stepOp cacheW1 (Op.ins 20) = some cacheW := by decide
  exact ⟨(c9_len_bounds (by decide)).1 cacheW
      (Reachable.next _ (Reachable.next _ Reachable.init h1) h2),
    (c9_len_bounds (by decide)).2.1 [1, 2, 3] [none, none, none] cacheV (by decide)⟩

/-- C10: `clear` empties only the storage, leaving `head` and `tail` at
their stale pre-clear values, and yet every subsequent operation behaves
as on an empty cache with no out-of-bounds access: `touch` returns
`false`, `find` and `front_mut` return nothing, and iteration is empty —
every slot lookup is bounds-checked and fails on the empty storage. -/
theorem c10_clear_stale_safe (c : LRUCache T N) (p : T → Bool) :
    (clear c).head = c.head ∧ (clear c).tail = c.tail ∧ len (clear c) = 0 ∧
    touch (clear c) p = some (false, clear c) ∧
    find (clear c) p = some (none, clear c) ∧
    front_mut (clear c) = none ∧
    iterVals (clear c) = [] := by
  have ht := touch_empty (c := clear c) rfl p
  refine ⟨rfl, rfl, rfl, ht, ?_, ?_, iterVals_empty rfl⟩
  · unfold find
    rw [ht]
    rfl
  · unfold front_mut clear
    simp

end LRU
